import Mathlib

/-!
Verification of an explicit-stack Sudoku backtracking solver.

The definitions below are a shallow embedding of the C++ sources
`SudokuSolverWithHardestEver.cpp` / `Simplified.cpp`: an N×N grid of
naturals (0 = blank), an occurrence index mapping each digit to the list
of coordinates currently holding it, an MRV (most-constrained-cell)
selector, and a push/increment/pop search engine driven by an explicit
stack.  The diagnostic variant's internal-invariant checks are modelled
with `Except String`; the main loop is modelled with explicit fuel.
-/

namespace Sudoku

/-- A coordinate pair (row, column), 0-indexed. -/
abbrev Coord := Nat × Nat

/-- The grid: a vector of horizontal row vectors; 0 denotes a blank. -/
abbrev Grid := List (List Nat)

/-- The occurrence index: digit ↦ ordered list of coordinates holding it
(`std::unordered_map<int, std::vector<std::pair<int,int>>>`; absent keys
read as the empty vector). -/
abbrev RecordMap := Nat → List Coord

/-- Read `grid[i][j]`; out-of-range reads give 0 (all in-program reads are
in range). -/
def cellAt (g : Grid) (p : Coord) : Nat :=
  (g.getD p.1 []).getD p.2 0

/-- Write `grid[i][j] = v`; out-of-range writes are dropped. -/
def setCell (g : Grid) (p : Coord) (v : Nat) : Grid :=
  g.set p.1 ((g.getD p.1 []).set p.2 v)

/-- Row-major list of all coordinates of the grid. -/
def coordsOf (g : Grid) : List Coord :=
  g.enum.flatMap fun ir => (List.range ir.2.length).map fun j => (ir.1, j)

/-- `blankSquares`: row-major list of coordinates of blanks. -/
def blankSquares (g : Grid) : List Coord :=
  (coordsOf g).filter fun p => cellAt g p == 0

/-- `occurrences`: build the occurrence index from the grid (row-major
insertion order per digit; the digit 0 is never inserted). -/
def occurrences (g : Grid) : RecordMap := fun d =>
  if d = 0 then [] else (coordsOf g).filter fun p => cellAt g p == d

/-- Append a coordinate to a digit's occurrence list (`push_back`). -/
def recordAdd (r : RecordMap) (d : Nat) (c : Coord) : RecordMap := fun k =>
  if k = d then r k ++ [c] else r k

/-- Replace one digit's occurrence list. -/
def recordSet (r : RecordMap) (d : Nat) (l : List Coord) : RecordMap := fun k =>
  if k = d then l else r k

/-- `checkIndex`: an index into the grid makes sense. -/
def checkIndex (i : Nat) (g : Grid) : Bool :=
  i < g.length

/-- `checkPair`: both coordinates make sense. -/
def checkPair (c : Coord) (g : Grid) : Bool :=
  checkIndex c.1 g && checkIndex c.2 g

/-- `sameSubgrid`: the two coordinates lie in the same subregion,
i.e. `(row / subgridSize, col / subgridSize)` coincide. -/
def sameSubgrid (lhs rhs : Coord) (subgridSize : Nat) : Bool :=
  (lhs.1 / subgridSize == rhs.1 / subgridSize) &&
    (lhs.2 / subgridSize == rhs.2 / subgridSize)

/-- `consistent` on coordinate pairs: the two cells may legally hold the
same digit (equal pairs are trivially consistent). -/
def consistentPair (lhs rhs : Coord) (subgridSize : Nat) : Bool :=
  (lhs == rhs) ||
    ((lhs.1 != rhs.1) && (lhs.2 != rhs.2) && !(sameSubgrid lhs rhs subgridSize))

/-- `consistent` on a digit and a location: the placement is consistent
with every recorded occurrence of the digit.  The grid argument is unused
by the source as well. -/
def consistent (digit : Nat) (location : Coord) (grid : Grid) (record : RecordMap)
    (subgridSize : Nat) : Bool :=
  (record digit).all fun c => consistentPair location c subgridSize

/-- `checkHorizontal`: no matching digit elsewhere in the row. -/
def checkHorizontal (i j : Nat) (g : Grid) : Bool :=
  if !(checkPair (i, j) g) then false
  else if cellAt g (i, j) ≠ 0 then
    (List.range g.length).all fun J => (j == J) || (cellAt g (i, J) != cellAt g (i, j))
  else true

/-- `checkVertical`: no matching digit elsewhere in the column. -/
def checkVertical (i j : Nat) (g : Grid) : Bool :=
  if !(checkPair (i, j) g) then false
  else if cellAt g (i, j) ≠ 0 then
    (List.range g.length).all fun I => (i == I) || (cellAt g (I, j) != cellAt g (i, j))
  else true

/-- `checkSubgrid`: no matching digit in the subregion at a cell sharing
neither the row nor the column (those are covered by the other checks). -/
def checkSubgrid (i j : Nat) (g : Grid) (subgridSize : Nat) : Bool :=
  if !(checkPair (i, j) g) then false
  else if cellAt g (i, j) ≠ 0 then
    (List.range subgridSize).all fun a =>
      (List.range subgridSize).all fun b =>
        let I := (i - i % subgridSize) + a
        let J := (j - j % subgridSize) + b
        (i == I) || (j == J) || (cellAt g (I, J) != cellAt g (i, j))
  else true

/-- `checkLegal` at one square. -/
def checkLegalAt (i j : Nat) (g : Grid) (subgridSize : Nat) : Bool :=
  checkHorizontal i j g && checkVertical i j g && checkSubgrid i j g subgridSize

/-- `checkLegal` for the entire grid. -/
def checkLegal (g : Grid) (subgridSize : Nat) : Bool :=
  (List.range g.length).all fun i =>
    (List.range g.length).all fun j => checkLegalAt i j g subgridSize

/-- `checkFormat`: dimensions and value ranges make sense. -/
def checkFormat (g : Grid) (gridSize : Nat) : Bool :=
  (g.length == gridSize) &&
    g.all fun row => (row.length == gridSize) && row.all fun v => v ≤ gridSize

/-- `checkUserGrid`: format plus legality of the caller-supplied grid. -/
def checkUserGrid (g : Grid) (gridSize subgridSize : Nat) : Bool :=
  checkFormat g gridSize && checkLegal g subgridSize

/-- `options`: the legal digits for an originally blank square, probing
each digit `1..N` by tentatively writing it into the grid (no index
update) and asking `consistent`; the cell is reset to 0 afterwards.
Returns the ascending list of legal digits together with the grid as the
routine leaves it. -/
def options (location : Coord) (g : Grid) (record : RecordMap) (subgridSize : Nat) :
    List Nat × Grid :=
  if checkPair location g then
    let out := (List.range g.length).foldl
      (fun (acc : List Nat × Grid) k =>
        let g1 := setCell acc.2 location (k + 1)
        let val := cellAt g1 location
        if consistent val location g1 record subgridSize then (acc.1 ++ [val], g1)
        else (acc.1, g1))
      ([], g)
    (out.1, setCell out.2 location 0)
  else ([], g)

/-- The short-circuited option counter of the MRV scan: counts legal
digits for `q` but stops counting once the count reaches the current
threshold. -/
def cappedCount (g : Grid) (q : Coord) (record : RecordMap) (subgridSize : Nat)
    (t : Int) : Int :=
  (List.range g.length).foldl
    (fun acc k =>
      if acc < t && consistent (k + 1) q g record subgridSize then acc + 1 else acc)
    0

/-- The scanning loop of `min` over the non-initial blanks: carries the
index of the current minimum and the current threshold; exits early when
the threshold reaches 0. -/
def minGo (g : Grid) (record : RecordMap) (subgridSize : Nat) :
    List Coord → Nat → Nat → Int → Nat × Int
  | [], _, cur, t => (cur, t)
  | q :: rest, idx, cur, t =>
    if t == 0 then (cur, t)
    else
      let s := cappedCount g q record subgridSize t
      if s < t then minGo g record subgridSize rest (idx + 1) idx s
      else minGo g record subgridSize rest (idx + 1) cur t

/-- `min`: the index (into the blank list) of the blank with the fewest
legal options, the final threshold (whose boolean value is the
`nonEmpty` out-parameter), and the grid as the scan leaves it. -/
def min (g : Grid) (blanks : List Coord) (record : RecordMap) (subgridSize : Nat) :
    Nat × Int × Grid :=
  match blanks with
  | [] => (0, -1, g)
  | b :: rest =>
    let first := options b g record subgridSize
    let t : Int := first.1.length
    let out := minGo first.2 record subgridSize rest 1 0 t
    (out.1, out.2, first.2)

/-- `stackData`: the per-blank search frame. -/
structure stackData where
  coordinates : Coord
  choices : List Nat
  index : Nat
  revisited : Bool
deriving Repr, DecidableEq

/-- The state owned by one solve call: the grid, the occurrence index,
the pending blanks, and the search stack (head = top). -/
structure SolveState where
  grid : Grid
  record : RecordMap
  blanksInProcess : List Coord
  stack : List stackData

/-- `push`: select the most constrained blank; fail (returning `false`)
if it has no legal option; otherwise commit its first choice to the grid
and the occurrence index, push a fresh frame, and remove the coordinate
from the blank pool. -/
def push (s : SolveState) (subgridSize : Nat) : Except String (Bool × SolveState) :=
  if s.blanksInProcess.isEmpty then
    .error "should not be trying to push having run out of blank squares"
  else
    let m := min s.grid s.blanksInProcess s.record subgridSize
    if m.2.1 == 0 then .ok (false, { s with grid := m.2.2 })
    else
      let easiest := s.blanksInProcess.getD m.1 (0, 0)
      let res := options easiest m.2.2 s.record subgridSize
      if res.1.isEmpty then
        .error "list of choices unexpectedly empty while pushing"
      else
        let d := res.1.headD 0
        .ok (true,
          { grid := setCell res.2 easiest d,
            record := recordAdd s.record d easiest,
            blanksInProcess := s.blanksInProcess.eraseIdx m.1,
            stack := ⟨easiest, res.1, 0, false⟩ :: s.stack })

/-- Mark the newly exposed top frame (if any) as revisited. -/
def markRevisited : List stackData → List stackData
  | [] => []
  | g :: rs => { g with revisited := true } :: rs

/-- `pop`: remove the top frame, mark the newly exposed frame revisited,
clear the popped cell, return the coordinate to the blank pool, and
remove the coordinate from the occurrence list of the frame's *last*
choice. -/
def pop (s : SolveState) : Except String SolveState :=
  match s.stack with
  | [] => .error "trying to pop from an empty stack"
  | f :: rest =>
    if f.choices.isEmpty then
      .error "list of choices unexpectedly empty while popping"
    else
      let rest' : List stackData := markRevisited rest
      let column := s.record (f.choices.getLastD 0)
      if f.coordinates ∈ column then
        .ok { grid := setCell s.grid f.coordinates 0,
              record := recordSet s.record (f.choices.getLastD 0)
                (column.erase f.coordinates),
              blanksInProcess := s.blanksInProcess ++ [f.coordinates],
              stack := rest' }
      else
        .error "when popping the coordinates of the popped value should be in the appropriate list"

/-- `increment` (core overload): advance the top frame's cursor to its
next choice, updating the grid and the occurrence index. -/
def increment (s : SolveState) : Except String SolveState :=
  match s.stack with
  | [] => .error "stack unexpectedly empty while trying to increment"
  | f :: rest =>
    if f.index + 1 ≥ f.choices.length then
      .error "cannot increment because already at highest option"
    else
      let c := f.coordinates
      let dOld := cellAt s.grid c
      let column := s.record dOld
      if c ∈ column then
        let dNew := f.choices.getD (f.index + 1) 0
        .ok { grid := setCell s.grid c dNew,
              record := recordAdd (recordSet s.record dOld (column.erase c)) dNew c,
              blanksInProcess := s.blanksInProcess,
              stack := { f with index := f.index + 1 } :: rest }
      else .error "digit which needs removing from records cannot be found"

/-- `tryToPush`: attempt to push, but pop if the attempt fails. -/
def tryToPush (s : SolveState) (subgridSize : Nat) : Except String SolveState := do
  let r ← push s subgridSize
  if r.1 then pure r.2 else pop r.2

/-- `increment` (combined overload): increment, then try to push; if the
stack has become empty while blanks remain, restart with a fresh push. -/
def incrementPush (s : SolveState) (subgridSize : Nat) : Except String SolveState := do
  let s1 ← increment s
  let s2 ← tryToPush s1 subgridSize
  if s2.stack.isEmpty && !s2.blanksInProcess.isEmpty then
    let r ← push s2 subgridSize
    pure r.2
  else pure s2

/-- The outcome of one iteration of the main loop. -/
inductive IterStep where
  | done (result : Grid) (s : SolveState)
  | next (s : SolveState)

/-- One iteration of `backtrack`'s while loop (including its exit
conditions): empty stack ⇒ no solution (empty grid); full stack ⇒
solved; otherwise increment / tryToPush / pop according to the top
frame. -/
def stepIter (fullStackSize : Nat) (s : SolveState) (subgridSize : Nat) :
    Except String IterStep :=
  match s.stack with
  | [] => .ok (.done [] s)
  | f :: _ =>
    if s.stack.length = fullStackSize then .ok (.done s.grid s)
    else if f.revisited && f.index + 1 < f.choices.length then
      (incrementPush s subgridSize).map .next
    else if !f.revisited then (tryToPush s subgridSize).map .next
    else (pop s).map .next

/-- The fuelled main loop; `none` means the fuel ran out. -/
def loopRun (fullStackSize subgridSize : Nat) :
    Nat → SolveState → Except String (Option (Grid × SolveState))
  | 0, _ => .ok none
  | fuel + 1, s => do
    match ← stepIter fullStackSize s subgridSize with
    | .done r s' => pure (some (r, s'))
    | .next s' => loopRun fullStackSize subgridSize fuel s'

/-- `backtrack`: build the blank pool and the occurrence index, return
the grid at once if there is nothing to fill, otherwise seed the stack
with one push and run the loop.  The result pairs the returned grid
(`[]` = the no-solution sentinel) with the final state. -/
def backtrack (g : Grid) (subgridSize : Nat) (fuel : Nat) :
    Except String (Option (Grid × SolveState)) :=
  let blanks := blankSquares g
  let s0 : SolveState := ⟨g, occurrences g, blanks, []⟩
  if blanks.isEmpty then .ok (some (g, s0))
  else do
    let r ← push s0 subgridSize
    loopRun blanks.length subgridSize fuel r.2

/-- The grid value `backtrack` returns, if it terminated normally. -/
def returnedGrid (r : Except String (Option (Grid × SolveState))) : Option Grid :=
  match r with
  | .ok (some p) => some p.1
  | _ => none

/-- The final contents of the caller's (by-reference) grid, if
`backtrack` terminated normally. -/
def finalGrid (r : Except String (Option (Grid × SolveState))) : Option Grid :=
  match r with
  | .ok (some p) => some p.2.grid
  | _ => none

/-- The final search stack, if `backtrack` terminated normally. -/
def finalStack (r : Except String (Option (Grid × SolveState))) :
    Option (List stackData) :=
  match r with
  | .ok (some p) => some p.2.stack
  | _ => none

/-! ### Basic facts about cells -/

/-- The grid is square: every row has as many entries as there are rows. -/
def Square (g : Grid) : Prop := ∀ row ∈ g, row.length = g.length

theorem length_setCell (g : Grid) (p : Coord) (v : Nat) :
    (setCell g p v).length = g.length := by
  simp [setCell]

theorem getD_setCell_self (g : Grid) (p : Coord) (v : Nat) (h1 : p.1 < g.length) :
    (setCell g p v).getD p.1 [] = (g.getD p.1 []).set p.2 v := by
  simp only [setCell, List.getD, List.get?_eq_getElem?]
  rw [List.getElem?_set_self (by simpa using h1)]
  simp

theorem getD_setCell_ne (g : Grid) (p : Coord) (v : Nat) (i : Nat) (h : i ≠ p.1) :
    (setCell g p v).getD i [] = g.getD i [] := by
  simp only [setCell, List.getD, List.get?_eq_getElem?]
  rw [List.getElem?_set_ne (fun hh => h hh.symm)]

theorem cellAt_setCell_self (g : Grid) (p : Coord) (v : Nat)
    (h1 : p.1 < g.length) (h2 : p.2 < (g.getD p.1 []).length) :
    cellAt (setCell g p v) p = v := by
  show ((setCell g p v).getD p.1 []).getD p.2 0 = v
  rw [getD_setCell_self g p v h1]
  simp only [List.getD, List.get?_eq_getElem?]
  rw [List.getElem?_set_self (by simpa using h2)]
  simp

theorem setCell_oob (g : Grid) (p : Coord) (v : Nat) (h : g.length ≤ p.1) :
    setCell g p v = g := by
  simp only [setCell]
  exact List.set_eq_of_length_le h

theorem cellAt_setCell_ne (g : Grid) (p q : Coord) (v : Nat) (h : q ≠ p) :
    cellAt (setCell g p v) q = cellAt g q := by
  by_cases hr : p.1 < g.length
  · by_cases h1 : q.1 = p.1
    · have h2 : q.2 ≠ p.2 := fun h2 => h (Prod.ext h1 h2)
      simp only [cellAt, h1, getD_setCell_self g p v hr]
      simp only [List.getD, List.get?_eq_getElem?]
      rw [List.getElem?_set_ne (fun hh => h2 hh.symm)]
    · simp only [cellAt, getD_setCell_ne g p v q.1 h1]
  · rw [setCell_oob g p v (Nat.le_of_not_lt hr)]

theorem setCell_setCell (g : Grid) (p : Coord) (a b : Nat) :
    setCell (setCell g p a) p b = setCell g p b := by
  by_cases h1 : p.1 < g.length
  · simp only [setCell]
    rw [show ((g.set p.1 ((g.getD p.1 []).set p.2 a)).getD p.1 []) =
        (g.getD p.1 []).set p.2 a from getD_setCell_self g p a h1]
    rw [List.set_set, List.set_set]
  · rw [setCell_oob g p a (Nat.le_of_not_lt h1)]

theorem getD_eq_getElem_of_lt (g : Grid) (i : Nat) (hi : i < g.length) :
    g.getD i [] = g[i] := by
  simp [List.getD, List.get?_eq_getElem?, List.getElem?_eq_getElem hi]

theorem getD_length_of_square (g : Grid) (hsq : Square g) (i : Nat) (hi : i < g.length) :
    (g.getD i []).length = g.length := by
  rw [getD_eq_getElem_of_lt g i hi]
  exact hsq _ (g.getElem_mem hi)

theorem square_setCell (g : Grid) (p : Coord) (v : Nat) (hsq : Square g) :
    Square (setCell g p v) := by
  by_cases hp : p.1 < g.length
  · intro row hrow
    rw [length_setCell]
    rcases List.mem_or_eq_of_mem_set hrow with h | h
    · exact hsq _ h
    · subst h
      rw [List.length_set]
      exact getD_length_of_square g hsq p.1 hp
  · rw [setCell_oob g p v (Nat.le_of_not_lt hp)]
    exact hsq

/-! ### Characterisation of the consistency check (C5) -/

theorem consistentPair_iff (l q : Coord) (sub : Nat) :
    consistentPair l q sub = true ↔
      (q = l ∨ (q.1 ≠ l.1 ∧ q.2 ≠ l.2 ∧
        ¬(q.1 / sub = l.1 / sub ∧ q.2 / sub = l.2 / sub))) := by
  simp only [consistentPair, sameSubgrid, Bool.or_eq_true, Bool.and_eq_true, beq_iff_eq,
    bne_iff_ne, Bool.not_eq_true', Bool.and_eq_false_iff, beq_eq_false_iff_ne, ne_eq,
    Prod.ext_iff]
  constructor
  · rintro (⟨h1, h2⟩ | ⟨⟨h1, h2⟩, h3⟩)
    · exact Or.inl ⟨h1.symm, h2.symm⟩
    · refine Or.inr ⟨fun hh => h1 hh.symm, fun hh => h2 hh.symm, fun hh => ?_⟩
      rcases h3 with h3 | h3 <;> exact h3 (by tauto)
  · rintro (⟨h1, h2⟩ | ⟨h1, h2, h3⟩)
    · exact Or.inl ⟨h1.symm, h2.symm⟩
    · refine Or.inr ⟨⟨fun hh => h1 hh.symm, fun hh => h2 hh.symm⟩, ?_⟩
      by_cases ha : l.1 / sub = q.1 / sub
      · exact Or.inr fun hb => h3 ⟨ha.symm, hb.symm⟩
      · exact Or.inl ha

/-- C5: the consistency check returns true iff every coordinate recorded
under the digit either equals the candidate coordinate or shares no row,
no column and no subregion with it, where sharing a subregion means the
pairs (row / subregionSize, col / subregionSize) coincide. -/
theorem C5_consistent_iff (digit : Nat) (coord : Coord) (grid : Grid)
    (record : RecordMap) (subgridSize : Nat) :
    consistent digit coord grid record subgridSize = true ↔
      ∀ c ∈ record digit, c = coord ∨
        (c.1 ≠ coord.1 ∧ c.2 ≠ coord.2 ∧
          ¬(c.1 / subgridSize = coord.1 / subgridSize ∧
            c.2 / subgridSize = coord.2 / subgridSize)) := by
  simp only [consistent, List.all_eq_true]
  refine forall_congr' fun c => forall_congr' fun _ => ?_
  exact consistentPair_iff coord c subgridSize

/-! ### The number of legal options of a blank -/

/-- The number of legal digits for a coordinate, determined by the
occurrence record alone (the consistency check never reads the grid). -/
def countOptions (N : Nat) (q : Coord) (record : RecordMap) (sub : Nat) : Nat :=
  ((List.range N).filter fun k => consistent (k + 1) q [] record sub).length

theorem consistent_grid_irrel (d : Nat) (loc : Coord) (g g' : Grid) (r : RecordMap)
    (sub : Nat) : consistent d loc g r sub = consistent d loc g' r sub := rfl

theorem checkPair_true (loc : Coord) (g : Grid) (h1 : loc.1 < g.length)
    (h2 : loc.2 < g.length) : checkPair loc g = true := by
  simp [checkPair, checkIndex, h1, h2]

theorem options_fold (loc : Coord) (g : Grid) (r : RecordMap) (sub : Nat)
    (hsq : Square g) (h1 : loc.1 < g.length) (h2 : loc.2 < g.length) :
    ∀ (ks : List Nat) (acc : List Nat) (h : Grid),
      (∀ x, setCell h loc x = setCell g loc x) →
      (List.foldl (fun (acc : List Nat × Grid) k =>
          let g1 := setCell acc.2 loc (k + 1)
          let val := cellAt g1 loc
          if consistent val loc g1 r sub then (acc.1 ++ [val], g1)
          else (acc.1, g1)) (acc, h) ks).1 =
        acc ++ ((ks.filter fun k => consistent (k + 1) loc [] r sub).map (· + 1)) ∧
      (∀ x, setCell (List.foldl (fun (acc : List Nat × Grid) k =>
          let g1 := setCell acc.2 loc (k + 1)
          let val := cellAt g1 loc
          if consistent val loc g1 r sub then (acc.1 ++ [val], g1)
          else (acc.1, g1)) (acc, h) ks).2 loc x = setCell g loc x) := by
  intro ks
  induction ks with
  | nil => intro acc h hset; exact ⟨by simp, hset⟩
  | cons k ks ih =>
    intro acc h hset
    have hval : cellAt (setCell h loc (k + 1)) loc = k + 1 := by
      rw [hset (k + 1)]
      exact cellAt_setCell_self g loc (k + 1) h1
        (by rw [getD_length_of_square g hsq loc.1 h1]; exact h2)
    have hset' : ∀ x, setCell (setCell h loc (k + 1)) loc x = setCell g loc x := by
      intro x
      rw [hset (k + 1), setCell_setCell]
    simp only [List.foldl_cons, hval]
    rw [consistent_grid_irrel (k + 1) loc (setCell h loc (k + 1)) [] r sub]
    by_cases hc : consistent (k + 1) loc [] r sub
    · simp only [hc, if_true]
      have := ih (acc ++ [k + 1]) (setCell h loc (k + 1)) hset'
      refine ⟨?_, this.2⟩
      rw [this.1, List.filter_cons_of_pos (by simpa using hc)]
      simp
    · have hcf : consistent (k + 1) loc [] r sub = false := by
        simpa using hc
      rw [List.filter_cons_of_neg (by simp [hcf])]
      simp only [hcf, Bool.false_eq_true, if_false]
      exact ih acc (setCell h loc (k + 1)) hset'

theorem options_spec (loc : Coord) (g : Grid) (r : RecordMap) (sub : Nat)
    (hsq : Square g) (h1 : loc.1 < g.length) (h2 : loc.2 < g.length) :
    (options loc g r sub).1 =
      ((List.range g.length).filter fun k => consistent (k + 1) loc [] r sub).map (· + 1) ∧
    (options loc g r sub).2 = setCell g loc 0 := by
  have hfold := options_fold loc g r sub hsq h1 h2 (List.range g.length) [] g (fun _ => rfl)
  simp only [options, checkPair_true loc g h1 h2, if_true]
  exact ⟨by rw [hfold.1]; simp, hfold.2 0⟩

theorem options_length (loc : Coord) (g : Grid) (r : RecordMap) (sub : Nat)
    (hsq : Square g) (h1 : loc.1 < g.length) (h2 : loc.2 < g.length) :
    (options loc g r sub).1.length = countOptions g.length loc r sub := by
  rw [(options_spec loc g r sub hsq h1 h2).1, List.length_map, countOptions]

/-! ### Characterisation of the MRV scan (C6) -/

theorem listGetD_eq_getElem {α : Type} (l : List α) (i : Nat) (d : α)
    (h : i < l.length) : l.getD i d = l[i] := by
  simp [List.getD, List.get?_eq_getElem?, List.getElem?_eq_getElem h]

theorem listGetD_mem {α : Type} (l : List α) (i : Nat) (d : α)
    (h : i < l.length) : l.getD i d ∈ l := by
  rw [listGetD_eq_getElem l i d h]
  exact l.getElem_mem h

theorem cappedCount_fold (g : Grid) (q : Coord) (r : RecordMap) (sub : Nat) (t : Int) :
    ∀ (ks : List Nat) (acc : Int), 0 ≤ acc → acc ≤ t →
      List.foldl (fun acc k =>
          if acc < t && consistent (k + 1) q g r sub then acc + 1 else acc) acc ks =
        if acc + ((ks.filter fun k => consistent (k + 1) q g r sub).length : Int) ≤ t
        then acc + ((ks.filter fun k => consistent (k + 1) q g r sub).length : Int)
        else t := by
  intro ks
  induction ks with
  | nil =>
    intro acc h0 ht
    simp only [List.foldl_nil, List.filter_nil, List.length_nil, Int.natCast_zero]
    split_ifs <;> omega
  | cons k ks ih =>
    intro acc h0 ht
    simp only [List.foldl_cons]
    by_cases hc : consistent (k + 1) q g r sub
    · rw [List.filter_cons_of_pos (by simpa using hc)]
      simp only [hc, Bool.and_true]
      by_cases hlt : acc < t
      · rw [if_pos (by simpa using hlt)]
        rw [ih (acc + 1) (by omega) (by omega)]
        simp only [List.length_cons]
        split_ifs <;> push_cast <;> omega
      · rw [if_neg (by simpa using hlt)]
        rw [ih acc h0 ht]
        simp only [List.length_cons]
        split_ifs <;> push_cast <;> omega
    · have hcf : consistent (k + 1) q g r sub = false := by simpa using hc
      rw [List.filter_cons_of_neg (by simp [hcf])]
      simp only [hcf, Bool.and_false, Bool.false_eq_true, if_false]
      exact ih acc h0 ht

theorem cappedCount_spec (g : Grid) (q : Coord) (r : RecordMap) (sub : Nat) (t : Int)
    (ht : 0 ≤ t) :
    cappedCount g q r sub t =
      if (countOptions g.length q r sub : Int) ≤ t
      then (countOptions g.length q r sub : Int) else t := by
  have h := cappedCount_fold g q r sub t (List.range g.length) 0 (le_refl 0) ht
  simpa [cappedCount, countOptions] using h

theorem minGo_spec (g : Grid) (r : RecordMap) (sub : Nat) (v : Nat → Nat) :
    ∀ (l : List Coord) (idx cur : Nat) (t : Int),
      (∀ i, i < l.length → countOptions g.length (l.getD i (0, 0)) r sub = v (idx + i)) →
      cur < idx →
      ((v cur : Int) = t) →
      (∀ j, j < cur → t < v j) →
      (∀ j, j < idx → t ≤ v j) →
      (minGo g r sub l idx cur t).1 < idx + l.length ∧
      ((v (minGo g r sub l idx cur t).1 : Int) = (minGo g r sub l idx cur t).2) ∧
      (∀ j, j < idx + l.length → (minGo g r sub l idx cur t).2 ≤ (v j : Int)) ∧
      (∀ j, j < (minGo g r sub l idx cur t).1 →
        (minGo g r sub l idx cur t).2 < (v j : Int)) := by
  intro l
  induction l with
  | nil =>
    intro idx cur t _ hcur hvc hstrict hall
    simp only [minGo, List.length_nil, Nat.add_zero]
    exact ⟨hcur, hvc, fun j hj => hvc ▸ hall j hj, fun j hj => hvc ▸ hstrict j hj⟩
  | cons q l ih =>
    intro idx cur t hl hcur hvc hstrict hall
    have ht0 : 0 ≤ t := hvc ▸ Int.natCast_nonneg (v cur)
    by_cases hz : t = 0
    · subst hz
      simp only [minGo, beq_self_eq_true, if_true, List.length_cons]
      refine ⟨by omega, hvc, fun j _ => ?_, fun j hj => hstrict j hj⟩
      exact Int.natCast_nonneg (v j)
    · have hq : countOptions g.length q r sub = v idx := by
        have := hl 0 (by simp)
        simpa using this
      have hstep : minGo g r sub (q :: l) idx cur t =
          (let s := cappedCount g q r sub t
           if s < t then minGo g r sub l (idx + 1) idx s
           else minGo g r sub l (idx + 1) cur t) := by
        simp only [minGo]
        rw [if_neg (by simpa using hz)]
      rw [hstep]
      have hcap := cappedCount_spec g q r sub t ht0
      have hl' : ∀ i, i < l.length →
          countOptions g.length (l.getD i (0, 0)) r sub = v (idx + 1 + i) := by
        intro i hi
        have := hl (i + 1) (by simpa using hi)
        simpa [Nat.add_assoc, Nat.add_comm 1 i] using this
      simp only []
      by_cases hlt : cappedCount g q r sub t < t
      · rw [if_pos hlt]
        have hvq : (v idx : Int) = cappedCount g q r sub t := by
          rw [hcap] at hlt ⊢
          rw [hq] at *
          split_ifs with hc
          · rfl
          · omega
        have := ih (idx + 1) idx (cappedCount g q r sub t) hl' (by omega) hvq
          (fun j hj => by
            have := hall j hj
            omega)
          (fun j hj => by
            rcases Nat.lt_succ_iff_lt_or_eq.mp hj with h | h
            · have := hall j h
              omega
            · subst h
              omega)
        simpa [List.length_cons, Nat.add_assoc, Nat.add_comm 1 l.length,
          Nat.add_left_comm] using this
      · rw [if_neg hlt]
        have hge : t ≤ (v idx : Int) := by
          rw [hcap] at hlt
          rw [hq] at *
          split_ifs at hlt with hc
          · omega
          · omega
        have := ih (idx + 1) cur t hl' (by omega) hvc hstrict
          (fun j hj => by
            rcases Nat.lt_succ_iff_lt_or_eq.mp hj with h | h
            · exact hall j h
            · subst h
              exact hge)
        simpa [List.length_cons, Nat.add_assoc, Nat.add_comm 1 l.length,
          Nat.add_left_comm] using this

theorem min_spec (g : Grid) (pool : List Coord) (r : RecordMap) (sub : Nat)
    (hsq : Square g) (hin : ∀ p ∈ pool, p.1 < g.length ∧ p.2 < g.length)
    (hne : pool ≠ []) :
    (min g pool r sub).1 < pool.length ∧
    ((countOptions g.length (pool.getD (min g pool r sub).1 (0, 0)) r sub : Int) =
      (min g pool r sub).2.1) ∧
    (∀ j, j < pool.length →
      (min g pool r sub).2.1 ≤ (countOptions g.length (pool.getD j (0, 0)) r sub : Int)) ∧
    (∀ j, j < (min g pool r sub).1 →
      (min g pool r sub).2.1 < (countOptions g.length (pool.getD j (0, 0)) r sub : Int)) ∧
    (min g pool r sub).2.2 = setCell g (pool.getD 0 (0, 0)) 0 := by
  match pool with
  | [] => exact absurd rfl hne
  | b :: rest =>
    have hb := hin b (by simp)
    have hosp := options_spec b g r sub hsq hb.1 hb.2
    have hlen2 : (options b g r sub).2.length = g.length := by
      rw [hosp.2, length_setCell]
    have holen : (options b g r sub).1.length = countOptions g.length b r sub :=
      options_length b g r sub hsq hb.1 hb.2
    have hmin : min g (b :: rest) r sub =
        ((minGo (options b g r sub).2 r sub rest 1 0 ((options b g r sub).1.length : Int)).1,
         (minGo (options b g r sub).2 r sub rest 1 0 ((options b g r sub).1.length : Int)).2,
         (options b g r sub).2) := rfl
    have hspec := minGo_spec (options b g r sub).2 r sub
      (fun j => countOptions g.length ((b :: rest).getD j (0, 0)) r sub) rest 1 0
      ((options b g r sub).1.length : Int)
      (fun i hi => by rw [hlen2]; simp [Nat.add_comm 1 i])
      (by omega)
      (by simp only [List.getD_cons_zero]; rw [holen])
      (fun j hj => by omega)
      (fun j hj => by
        interval_cases j
        simp only [List.getD_cons_zero]
        rw [holen])
    rw [hmin]
    refine ⟨?_, hspec.2.1, ?_, hspec.2.2.2, by simp [hosp.2]⟩
    · have h := hspec.1
      simp only [List.length_cons]
      omega
    · intro j hj
      simp only [List.length_cons] at hj
      exact hspec.2.2.1 j (by omega)

/-- C6 (amended): on a non-empty pool of in-range blanks, `min` returns
the index of a pool coordinate whose number of legal options is minimal,
ties resolved to the earliest such coordinate in pool order; its
by-reference boolean (the final threshold being nonzero) indicates
whether *every* blank in the pool has at least one legal option —
equivalently, whether the selected minimal blank has one. -/
theorem C6_min_spec (g : Grid) (pool : List Coord) (record : RecordMap) (sub : Nat)
    (hsq : Square g) (hin : ∀ p ∈ pool, p.1 < g.length ∧ p.2 < g.length)
    (hne : pool ≠ []) :
    (Sudoku.min g pool record sub).1 < pool.length ∧
    (∀ j, j < pool.length →
      countOptions g.length (pool.getD (Sudoku.min g pool record sub).1 (0, 0)) record sub ≤
        countOptions g.length (pool.getD j (0, 0)) record sub) ∧
    (∀ j, j < (Sudoku.min g pool record sub).1 →
      countOptions g.length (pool.getD (Sudoku.min g pool record sub).1 (0, 0)) record sub <
        countOptions g.length (pool.getD j (0, 0)) record sub) ∧
    (((Sudoku.min g pool record sub).2.1 ≠ 0) ↔
      ∀ p ∈ pool, 1 ≤ countOptions g.length p record sub) := by
  obtain ⟨h1, h2, h3, h4, -⟩ := min_spec g pool record sub hsq hin hne
  refine ⟨h1, ?_, ?_, ?_⟩
  · intro j hj
    have := h3 j hj
    omega
  · intro j hj
    have := h4 j hj
    omega
  · constructor
    · intro hfz p hp
      obtain ⟨j, hjl, hjp⟩ := List.mem_iff_getElem.mp hp
      have := h3 j hjl
      rw [listGetD_eq_getElem pool j (0, 0) hjl, hjp] at this
      omega
    · intro hall
      have hmem := listGetD_mem pool (Sudoku.min g pool record sub).1 (0, 0) h1
      have := hall _ hmem
      omega

theorem C6_min_spec_witness :
    (Sudoku.min [[0]] [(0, 0)] (occurrences [[0]]) 1).1 < 1 :=
  (C6_min_spec [[0]] [(0, 0)] (occurrences [[0]]) 1
    (by intro row h; simp at h; simp [h])
    (by intro p hp; simp at hp; simp [hp])
    (by simp)).1

/-- The concrete state refuting C6's description of the boolean: a legal
4×4 position in which the blank (0,3) has no legal option (so the
threshold ends at 0, i.e. the boolean is false) while the blank (3,0)
does have one — the boolean does not mean "some blank had an option". -/
def C6cexGrid : Grid := [[1, 2, 3, 0], [0, 0, 0, 4], [0, 0, 0, 0], [0, 0, 0, 0]]

/-- C6 counterexample: the boolean out-parameter of `min` is false here
although a blank in the pool has at least one legal option. -/
theorem C6_counterexample :
    checkUserGrid C6cexGrid 4 2 = true ∧
    (Sudoku.min C6cexGrid (blankSquares C6cexGrid) (occurrences C6cexGrid) 2).2.1 = 0 ∧
    (3, 0) ∈ blankSquares C6cexGrid ∧
    1 ≤ countOptions C6cexGrid.length (3, 0) (occurrences C6cexGrid) 2 := by
  decide

/-! ### Grids, blanks and coordinates -/

theorem listSet_getElem_self {α : Type} (l : List α) (i : Nat) (h : i < l.length) :
    l.set i l[i] = l := by
  apply List.ext_getElem?
  intro n
  by_cases hn : n = i
  · subst hn
    rw [List.getElem?_set_self (by simpa using h)]
    simp [h]
  · rw [List.getElem?_set_ne (fun hh => hn hh.symm)]

theorem setCell_eq_self (g : Grid) (p : Coord) (hsq : Square g)
    (h1 : p.1 < g.length) (h2 : p.2 < g.length) (hv : cellAt g p = v) :
    setCell g p v = g := by
  have hrow : (g.getD p.1 []).length = g.length := getD_length_of_square g hsq p.1 h1
  have h2' : p.2 < (g.getD p.1 []).length := by omega
  have hv' : (g.getD p.1 [])[p.2] = v := by
    rw [← listGetD_eq_getElem _ _ 0 h2']
    exact hv
  simp only [setCell, ← hv', listSet_getElem_self _ _ h2']
  rw [getD_eq_getElem_of_lt g p.1 h1]
  exact listSet_getElem_self g p.1 h1

theorem mem_coordsOf (g : Grid) (p : Coord) :
    p ∈ coordsOf g ↔ ∃ h : p.1 < g.length, p.2 < g[p.1].length := by
  simp only [coordsOf, List.mem_flatMap, List.mem_map, List.mem_enum_iff_getElem?]
  constructor
  · rintro ⟨⟨i, row⟩, hrow, j, hj, hp⟩
    obtain ⟨hi, hrow'⟩ := by
      have := List.getElem?_eq_some_iff.mp hrow
      exact this
    cases hp
    exact ⟨hi, by simpa [hrow'] using hj⟩
  · rintro ⟨h1, h2⟩
    exact ⟨(p.1, g[p.1]), by simp [List.getElem?_eq_getElem h1], p.2, by simpa using h2,
      by simp⟩

theorem mem_coordsOf_square (g : Grid) (hsq : Square g) (p : Coord) :
    p ∈ coordsOf g ↔ p.1 < g.length ∧ p.2 < g.length := by
  rw [mem_coordsOf]
  constructor
  · rintro ⟨h1, h2⟩
    exact ⟨h1, by rwa [hsq _ (g.getElem_mem h1)] at h2⟩
  · rintro ⟨h1, h2⟩
    exact ⟨h1, by rwa [hsq _ (g.getElem_mem h1)]⟩

theorem mem_blankSquares (g : Grid) (hsq : Square g) (p : Coord) :
    p ∈ blankSquares g ↔ p.1 < g.length ∧ p.2 < g.length ∧ cellAt g p = 0 := by
  simp only [blankSquares, List.mem_filter, mem_coordsOf_square g hsq, beq_iff_eq]
  tauto

/-! ### The search state: reconstruction from the stack -/

/-- The digit a frame currently commits to its coordinate. -/
def frameDigit (f : stackData) : Nat := f.choices.getD f.index 0

/-- Write one frame's digit into a grid. -/
def place (g : Grid) (f : stackData) : Grid := setCell g f.coordinates (frameDigit f)

/-- Write all stacked frames' digits into a grid (head = top of stack). -/
def placeAll (g : Grid) (st : List stackData) : Grid :=
  st.foldr (fun f acc => place acc f) g

/-- The coordinates of the stacked frames, top first. -/
def frameCoords (st : List stackData) : List Coord := st.map (·.coordinates)

theorem placeAll_nil (g : Grid) : placeAll g [] = g := rfl

theorem placeAll_cons (g : Grid) (f : stackData) (st : List stackData) :
    placeAll g (f :: st) = place (placeAll g st) f := rfl

theorem length_placeAll (g : Grid) (st : List stackData) :
    (placeAll g st).length = g.length := by
  induction st with
  | nil => rfl
  | cons f st ih => rw [placeAll_cons, place, length_setCell, ih]

theorem square_placeAll (g : Grid) (st : List stackData) (hsq : Square g) :
    Square (placeAll g st) := by
  induction st with
  | nil => exact hsq
  | cons f st ih =>
    rw [placeAll_cons, place]
    intro row hrow
    rw [length_setCell, length_placeAll]
    have := square_setCell (placeAll g st) f.coordinates (frameDigit f) ih row hrow
    rwa [length_setCell, length_placeAll] at this

theorem cellAt_placeAll_notin (g : Grid) (st : List stackData) (p : Coord)
    (hp : p ∉ frameCoords st) : cellAt (placeAll g st) p = cellAt g p := by
  induction st with
  | nil => rfl
  | cons f st ih =>
    rw [placeAll_cons, place, cellAt_setCell_ne _ _ _ _ (by
      intro h
      exact hp (by simp [frameCoords, h]))]
    exact ih (fun h => hp (by simp [frameCoords] at h ⊢; exact Or.inr h))

/-! ### Coherence of the occurrence index -/

/-- The occurrence index matches the grid: for every digit d ≥ 1, the
list under d has no duplicates and contains exactly the in-range
coordinates currently holding d. -/
def Coherent (r : RecordMap) (g : Grid) : Prop :=
  ∀ d, 1 ≤ d → (r d).Nodup ∧
    ∀ p : Coord, p ∈ r d ↔ (p.1 < g.length ∧ p.2 < g.length ∧ cellAt g p = d)

theorem nodup_coordsOf (g : Grid) : (coordsOf g).Nodup := by
  rw [coordsOf, List.nodup_flatMap]
  constructor
  · rintro ⟨i, row⟩ -
    exact (List.nodup_range row.length).map fun a b h => by simpa using h
  · have hfst : (g.enum.map Prod.fst).Nodup := by
      rw [List.enum_map_fst]
      exact List.nodup_range g.length
    have hpw : List.Pairwise (fun a b : Nat × List Nat => a.1 ≠ b.1) g.enum :=
      List.pairwise_map.mp hfst
    refine hpw.imp ?_
    rintro ⟨i, row⟩ ⟨i', row'⟩ hne p hp hp'
    simp only [Function.onFun, List.mem_map] at hp hp'
    obtain ⟨j, -, hj⟩ := hp
    obtain ⟨j', -, hj'⟩ := hp'
    exact hne (by rw [← hj] at hj'; exact ((Prod.ext_iff.mp hj').1).symm)

theorem coherent_occurrences (g : Grid) (hsq : Square g) :
    Coherent (occurrences g) g := by
  intro d hd
  constructor
  · simp only [occurrences, if_neg (by omega : ¬ d = 0)]
    exact (nodup_coordsOf g).filter _
  · intro p
    simp only [occurrences, if_neg (by omega : ¬ d = 0), List.mem_filter,
      mem_coordsOf_square g hsq, beq_iff_eq]
    tauto

/-! ### Grid-level consistency (the record-free counterpart) -/

/-- `v` may be placed at `c`: every in-range cell currently holding `v`
is pair-consistent with `c`. -/
def gridConsistentB (g : Grid) (v : Nat) (c : Coord) (sub : Nat) : Bool :=
  (coordsOf g).all fun q => !(cellAt g q == v) || consistentPair c q sub

/-- The legal digits at `c` judged against the grid itself (ascending). -/
def gridOptions (g : Grid) (c : Coord) (sub : Nat) : List Nat :=
  ((List.range g.length).filter fun k => gridConsistentB g (k + 1) c sub).map (· + 1)

theorem gridConsistentB_iff (g : Grid) (v : Nat) (c : Coord) (sub : Nat)
    (hsq : Square g) :
    gridConsistentB g v c sub = true ↔
      ∀ q : Coord, q.1 < g.length → q.2 < g.length → cellAt g q = v →
        consistentPair c q sub = true := by
  simp only [gridConsistentB, List.all_eq_true, mem_coordsOf_square g hsq,
    Bool.or_eq_true, Bool.not_eq_true', beq_eq_false_iff_ne, ne_eq]
  constructor
  · intro h q h1 h2 hq
    rcases h q ⟨h1, h2⟩ with h | h
    · exact absurd hq h
    · exact h
  · intro h q hq
    by_cases hcell : cellAt g q = v
    · exact Or.inr (h q hq.1 hq.2 hcell)
    · exact Or.inl hcell

theorem consistent_eq_gridConsistentB (r : RecordMap) (g g' : Grid) (c : Coord)
    (sub v : Nat) (hcoh : Coherent r g) (hsq : Square g) (hv : 1 ≤ v) :
    consistent v c g' r sub = gridConsistentB g v c sub := by
  have h1 : consistent v c g' r sub = true ↔ gridConsistentB g v c sub = true := by
    rw [gridConsistentB_iff g v c sub hsq]
    simp only [consistent, List.all_eq_true]
    constructor
    · intro h q hq1 hq2 hcell
      exact h q (((hcoh v hv).2 q).mpr ⟨hq1, hq2, hcell⟩)
    · intro h q hq
      obtain ⟨hq1, hq2, hcell⟩ := ((hcoh v hv).2 q).mp hq
      exact h q hq1 hq2 hcell
  cases hb : gridConsistentB g v c sub
  · rcases Bool.eq_false_or_eq_true (consistent v c g' r sub) with hb' | hb'
    · rw [hb] at h1
      exact absurd (h1.mp hb') Bool.false_ne_true
    · exact hb'
  · exact h1.mpr hb

theorem countOptions_eq_gridOptions_length (r : RecordMap) (g : Grid) (c : Coord)
    (sub : Nat) (hcoh : Coherent r g) (hsq : Square g) :
    countOptions g.length c r sub = (gridOptions g c sub).length := by
  rw [countOptions, gridOptions, List.length_map]
  congr 1
  apply List.filter_congr
  intro k _
  exact consistent_eq_gridConsistentB r g [] c sub (k + 1) hcoh hsq (by omega)

theorem mem_gridOptions (g : Grid) (c : Coord) (sub v : Nat) :
    v ∈ gridOptions g c sub ↔
      1 ≤ v ∧ v ≤ g.length ∧ gridConsistentB g v c sub = true := by
  simp only [gridOptions, List.mem_map, List.mem_filter, List.mem_range]
  constructor
  · rintro ⟨k, ⟨hk, hc⟩, rfl⟩
    exact ⟨by omega, by omega, hc⟩
  · rintro ⟨h1, h2, hc⟩
    exact ⟨v - 1, ⟨by omega, by rw [Nat.sub_add_cancel h1]; exact hc⟩,
      Nat.sub_add_cancel h1⟩

theorem gridOptions_nodup (g : Grid) (c : Coord) (sub : Nat) :
    (gridOptions g c sub).Nodup := by
  refine ((List.nodup_range g.length).filter _).map ?_
  intro a b h
  have hab : a + 1 = b + 1 := h
  omega

/-! ### Coherence is preserved by the three record updates -/

theorem coherent_add (r : RecordMap) (g : Grid) (c : Coord) (d : Nat)
    (hcoh : Coherent r g) (hsq : Square g)
    (h1 : c.1 < g.length) (h2 : c.2 < g.length) (h0 : cellAt g c = 0) (hd : 1 ≤ d) :
    Coherent (recordAdd r d c) (setCell g c d) := by
  intro e he
  have hrow : c.2 < (g.getD c.1 []).length := by
    rw [getD_length_of_square g hsq c.1 h1]; exact h2
  have hcself : cellAt (setCell g c d) c = d := cellAt_setCell_self g c d h1 hrow
  constructor
  · by_cases hed : e = d
    · subst hed
      simp only [recordAdd, if_pos rfl]
      refine List.Nodup.append ((hcoh e he).1) (List.nodup_singleton c) ?_
      intro a ha hb
      simp only [List.mem_singleton] at hb
      subst hb
      have := ((hcoh e he).2 a).mp ha
      omega
    · simp only [recordAdd, if_neg hed]
      exact (hcoh e he).1
  · intro p
    simp only [recordAdd, length_setCell]
    by_cases hed : e = d
    · subst hed
      rw [if_pos rfl]
      simp only [List.mem_append, List.mem_singleton]
      constructor
      · rintro (hp | rfl)
        · obtain ⟨ha, hb, hc⟩ := ((hcoh e he).2 p).mp hp
          refine ⟨ha, hb, ?_⟩
          rw [cellAt_setCell_ne g c p e (fun hpc => by rw [hpc, h0] at hc; omega)]
          exact hc
        · exact ⟨h1, h2, hcself⟩
      · rintro ⟨ha, hb, hc⟩
        by_cases hpc : p = c
        · exact Or.inr hpc
        · rw [cellAt_setCell_ne g c p e hpc] at hc
          exact Or.inl (((hcoh e he).2 p).mpr ⟨ha, hb, hc⟩)
    · rw [if_neg hed]
      rw [(hcoh e he).2 p]
      constructor
      · rintro ⟨ha, hb, hc⟩
        refine ⟨ha, hb, ?_⟩
        rw [cellAt_setCell_ne g c p d (fun hpc => by rw [hpc, h0] at hc; omega)]
        exact hc
      · rintro ⟨ha, hb, hc⟩
        by_cases hpc : p = c
        · subst hpc
          rw [hcself] at hc
          exact absurd hc.symm hed
        · rw [cellAt_setCell_ne g c p d hpc] at hc
          exact ⟨ha, hb, hc⟩

theorem coherent_remove (r : RecordMap) (g : Grid) (c : Coord) (d : Nat)
    (hcoh : Coherent r g) (hsq : Square g)
    (h1 : c.1 < g.length) (h2 : c.2 < g.length) (hcell : cellAt g c = d) (hd : 1 ≤ d) :
    Coherent (recordSet r d ((r d).erase c)) (setCell g c 0) := by
  intro e he
  have hrow : c.2 < (g.getD c.1 []).length := by
    rw [getD_length_of_square g hsq c.1 h1]; exact h2
  have hcself : cellAt (setCell g c 0) c = 0 := cellAt_setCell_self g c 0 h1 hrow
  constructor
  · by_cases hed : e = d
    · subst hed
      simp only [recordSet, if_pos rfl]
      exact ((hcoh e he).1).erase c
    · simp only [recordSet, if_neg hed]
      exact (hcoh e he).1
  · intro p
    simp only [recordSet, length_setCell]
    by_cases hed : e = d
    · subst hed
      rw [if_pos rfl, ((hcoh e he).1).mem_erase_iff]
      rw [(hcoh e he).2 p]
      constructor
      · rintro ⟨hpc, ha, hb, hc⟩
        exact ⟨ha, hb, by rw [cellAt_setCell_ne g c p 0 hpc]; exact hc⟩
      · rintro ⟨ha, hb, hc⟩
        by_cases hpc : p = c
        · subst hpc
          rw [hcself] at hc
          omega
        · rw [cellAt_setCell_ne g c p 0 hpc] at hc
          exact ⟨hpc, ha, hb, hc⟩
    · rw [if_neg hed, (hcoh e he).2 p]
      constructor
      · rintro ⟨ha, hb, hc⟩
        by_cases hpc : p = c
        · subst hpc
          rw [hcell] at hc
          exact absurd hc.symm hed
        · exact ⟨ha, hb, by rw [cellAt_setCell_ne g c p 0 hpc]; exact hc⟩
      · rintro ⟨ha, hb, hc⟩
        by_cases hpc : p = c
        · subst hpc
          rw [hcself] at hc
          omega
        · rw [cellAt_setCell_ne g c p 0 hpc] at hc
          exact ⟨ha, hb, hc⟩

/-! ### Well-formed inputs, solutions, and the search invariant -/

/-- Well-formedness of the input grid (the claims' hypotheses): positive
subregion size, N = subregionSize², square shape, values in `[0, N]`, and
no pre-existing constraint violation among the filled cells. -/
structure WellFormed (g : Grid) (sub : Nat) : Prop where
  sub_pos : 1 ≤ sub
  size : g.length = sub * sub
  square : Square g
  vals : ∀ p : Coord, p.1 < g.length → p.2 < g.length → cellAt g p ≤ g.length
  legal : ∀ p q : Coord, p.1 < g.length → p.2 < g.length → q.1 < g.length →
    q.2 < g.length → p ≠ q → cellAt g p ≠ 0 → cellAt g p = cellAt g q →
    consistentPair p q sub = true

/-- `S` is a fully filled legal grid agreeing with `g` on its clues. -/
structure Completion (S g : Grid) (sub : Nat) : Prop where
  length_eq : S.length = g.length
  square : Square S
  filled : ∀ p : Coord, p.1 < S.length → p.2 < S.length →
    1 ≤ cellAt S p ∧ cellAt S p ≤ S.length
  agrees : ∀ p : Coord, p.1 < g.length → p.2 < g.length → cellAt g p ≠ 0 →
    cellAt S p = cellAt g p
  legal : ∀ p q : Coord, p.1 < S.length → p.2 < S.length → q.1 < S.length →
    q.2 < S.length → p ≠ q → cellAt S p = cellAt S q → consistentPair p q sub = true

/-- Integrity of the stacked frames, top first: each frame's cursor is in
range, fresh frames sit at cursor 0, the coordinate is an original blank,
the choices are exactly the options computed against the state below the
frame, and (the MRV guarantee) every blank still unassigned below the
frame had at least as many options as the frame has choices. -/
def FramesInv (g0 : Grid) (sub : Nat) : List stackData → Prop
  | [] => True
  | f :: rest =>
    FramesInv g0 sub rest ∧
    f.index < f.choices.length ∧
    (f.revisited = false → f.index = 0) ∧
    f.coordinates ∈ blankSquares g0 ∧
    f.choices = gridOptions (placeAll g0 rest) f.coordinates sub ∧
    (∀ b ∈ blankSquares g0, b ∉ frameCoords rest →
      f.choices.length ≤ (gridOptions (placeAll g0 rest) b sub).length)

/-- The reachability invariant of the search loop. -/
structure Inv (g0 : Grid) (sub : Nat) (s : SolveState) : Prop where
  gridEq : s.grid = placeAll g0 s.stack
  perm : (frameCoords s.stack ++ s.blanksInProcess).Perm (blankSquares g0)
  nodup : (frameCoords s.stack ++ s.blanksInProcess).Nodup
  coh : Coherent s.record s.grid
  frames : FramesInv g0 sub s.stack

theorem Inv.gridLength {g0 : Grid} {sub : Nat} {s : SolveState} (h : Inv g0 sub s) :
    s.grid.length = g0.length := by
  rw [h.gridEq, length_placeAll]

theorem Inv.gridSquare {g0 : Grid} {sub : Nat} {s : SolveState} (h : Inv g0 sub s)
    (hsq : Square g0) : Square s.grid := by
  rw [h.gridEq]
  exact square_placeAll g0 s.stack hsq

theorem Inv.conservation {g0 : Grid} {sub : Nat} {s : SolveState} (h : Inv g0 sub s) :
    s.stack.length + s.blanksInProcess.length = (blankSquares g0).length := by
  have := h.perm.length_eq
  simpa [frameCoords] using this

theorem Inv.pool_subset {g0 : Grid} {sub : Nat} {s : SolveState} (h : Inv g0 sub s) :
    ∀ p ∈ s.blanksInProcess, p ∈ blankSquares g0 := by
  intro p hp
  exact h.perm.subset (List.mem_append_right _ hp)

theorem Inv.pool_not_frame {g0 : Grid} {sub : Nat} {s : SolveState} (h : Inv g0 sub s) :
    ∀ p ∈ s.blanksInProcess, p ∉ frameCoords s.stack := by
  intro p hp hmem
  exact (List.disjoint_of_nodup_append h.nodup) hmem hp

theorem Inv.pool_blank {g0 : Grid} {sub : Nat} {s : SolveState} (h : Inv g0 sub s)
    (hsq : Square g0) :
    ∀ p ∈ s.blanksInProcess,
      p.1 < g0.length ∧ p.2 < g0.length ∧ cellAt s.grid p = 0 := by
  intro p hp
  obtain ⟨h1, h2, h0⟩ := (mem_blankSquares g0 hsq p).mp (h.pool_subset p hp)
  refine ⟨h1, h2, ?_⟩
  rw [h.gridEq, cellAt_placeAll_notin g0 s.stack p (h.pool_not_frame p hp)]
  exact h0

theorem Inv.frames_subset {g0 : Grid} {sub : Nat} {s : SolveState} (h : Inv g0 sub s) :
    ∀ p ∈ frameCoords s.stack, p ∈ blankSquares g0 := by
  intro p hp
  exact h.perm.subset (List.mem_append_left _ hp)

/-- A blank of the original grid that is not a stacked coordinate is in
the pool. -/
theorem Inv.blank_cases {g0 : Grid} {sub : Nat} {s : SolveState} (h : Inv g0 sub s) :
    ∀ b ∈ blankSquares g0, b ∉ frameCoords s.stack → b ∈ s.blanksInProcess := by
  intro b hb hnf
  have := h.perm.mem_iff.mpr hb
  rcases List.mem_append.mp this with hmem | hmem
  · exact absurd hmem hnf
  · exact hmem

/-! ### Specification of `push` at invariant states -/

theorem min_flag_iff (g : Grid) (pool : List Coord) (r : RecordMap) (sub : Nat)
    (hsq : Square g) (hin : ∀ p ∈ pool, p.1 < g.length ∧ p.2 < g.length)
    (hne : pool ≠ []) :
    ((Sudoku.min g pool r sub).2.1 ≠ 0) ↔
      ∀ p ∈ pool, 1 ≤ countOptions g.length p r sub := by
  obtain ⟨h1, h2, h3, -, -⟩ := min_spec g pool r sub hsq hin hne
  constructor
  · intro hfz p hp
    obtain ⟨j, hjl, hjp⟩ := List.mem_iff_getElem.mp hp
    have := h3 j hjl
    rw [listGetD_eq_getElem pool j (0, 0) hjl, hjp] at this
    omega
  · intro hall
    have hmem := listGetD_mem pool (Sudoku.min g pool r sub).1 (0, 0) h1
    have := hall _ hmem
    omega

theorem options_eq_gridOptions (c : Coord) (g : Grid) (r : RecordMap) (sub : Nat)
    (hcoh : Coherent r g) (hsq : Square g) (h1 : c.1 < g.length) (h2 : c.2 < g.length) :
    (options c g r sub).1 = gridOptions g c sub ∧
    (options c g r sub).2 = setCell g c 0 := by
  obtain ⟨hf, hs⟩ := options_spec c g r sub hsq h1 h2
  refine ⟨?_, hs⟩
  rw [hf, gridOptions]
  congr 1
  apply List.filter_congr
  intro k _
  exact consistent_eq_gridConsistentB r g [] c sub (k + 1) hcoh hsq (by omega)

theorem eraseIdx_eq_erase_getD (l : List Coord) (i : Nat) (hnd : l.Nodup)
    (hi : i < l.length) : l.eraseIdx i = l.erase (l.getD i (0, 0)) := by
  induction l generalizing i with
  | nil => simp at hi
  | cons x xs ih =>
    match i with
    | 0 =>
      simp only [List.eraseIdx_cons_zero, List.getD_cons_zero, List.erase_cons_head]
    | i + 1 =>
      have hi' : i < xs.length := by simpa using hi
      have hy : xs.getD i (0, 0) ∈ xs := listGetD_mem xs i (0, 0) hi'
      have hxy : x ≠ xs.getD i (0, 0) := by
        intro hx
        rw [← hx] at hy
        exact (List.nodup_cons.mp hnd).1 hy
      rw [List.eraseIdx_cons_succ, List.getD_cons_succ,
        List.erase_cons_tail (by simpa using hxy),
        ih i (List.nodup_cons.mp hnd).2 hi']

theorem push_spec (g0 : Grid) (sub : Nat) (s : SolveState)
    (hw : WellFormed g0 sub) (hinv : Inv g0 sub s) (hne : s.blanksInProcess ≠ []) :
    (¬ (∀ b ∈ s.blanksInProcess, 1 ≤ countOptions g0.length b s.record sub) →
      push s sub = .ok (false, s)) ∧
    ((∀ b ∈ s.blanksInProcess, 1 ≤ countOptions g0.length b s.record sub) →
      ∃ c, c ∈ s.blanksInProcess ∧
        (∀ b ∈ s.blanksInProcess,
          (gridOptions s.grid c sub).length ≤ (gridOptions s.grid b sub).length) ∧
        gridOptions s.grid c sub ≠ [] ∧
        push s sub = .ok (true,
          { grid := setCell s.grid c ((gridOptions s.grid c sub).headD 0),
            record := recordAdd s.record ((gridOptions s.grid c sub).headD 0) c,
            blanksInProcess := s.blanksInProcess.erase c,
            stack := ⟨c, gridOptions s.grid c sub, 0, false⟩ :: s.stack })) := by
  have hsqS : Square s.grid := hinv.gridSquare hw.square
  have hlenS : s.grid.length = g0.length := hinv.gridLength
  have hinpool : ∀ p ∈ s.blanksInProcess, p.1 < s.grid.length ∧ p.2 < s.grid.length := by
    intro p hp
    obtain ⟨ha, hb, -⟩ := hinv.pool_blank hw.square p hp
    omega
  have hpoolE : s.blanksInProcess.isEmpty = false := by
    simpa [List.isEmpty_iff] using hne
  have hcnt : ∀ b ∈ s.blanksInProcess,
      countOptions g0.length b s.record sub = (gridOptions s.grid b sub).length := by
    intro b hb
    rw [← hlenS]
    exact countOptions_eq_gridOptions_length s.record s.grid b sub hinv.coh hsqS
  obtain ⟨hms1, hms2, hms3, hms4, hms5⟩ :=
    min_spec s.grid s.blanksInProcess s.record sub hsqS hinpool hne
  have hflagiff := min_flag_iff s.grid s.blanksInProcess s.record sub hsqS hinpool hne
  have hlen0 : 0 < s.blanksInProcess.length := List.length_pos.mpr hne
  have hb0mem : s.blanksInProcess.getD 0 (0, 0) ∈ s.blanksInProcess :=
    listGetD_mem _ 0 (0, 0) hlen0
  have hgd0 : (Sudoku.min s.grid s.blanksInProcess s.record sub).2.2 = s.grid := by
    rw [hms5]
    obtain ⟨ha, hb, h0⟩ := hinv.pool_blank hw.square _ hb0mem
    exact setCell_eq_self s.grid _ hsqS (by omega) (by omega) h0
  have hcountfix : ∀ p ∈ s.blanksInProcess,
      countOptions s.grid.length p s.record sub = countOptions g0.length p s.record sub := by
    intro p hp
    rw [hlenS]
  constructor
  · intro hnc
    have hz : (Sudoku.min s.grid s.blanksInProcess s.record sub).2.1 = 0 := by
      by_contra hzz
      exact hnc (fun b hb => by
        rw [← hcountfix b hb]
        exact hflagiff.mp hzz b hb)
    simp only [push, hpoolE, Bool.false_eq_true, if_false, hz, beq_self_eq_true, if_true,
      hgd0]
  · intro hc
    have hz : (Sudoku.min s.grid s.blanksInProcess s.record sub).2.1 ≠ 0 := by
      apply hflagiff.mpr
      intro p hp
      rw [hcountfix p hp]
      exact hc p hp
    have hzb : ((Sudoku.min s.grid s.blanksInProcess s.record sub).2.1 == 0) = false :=
      beq_eq_false_iff_ne.mpr hz
    set idx := (Sudoku.min s.grid s.blanksInProcess s.record sub).1 with hidx
    set c := s.blanksInProcess.getD idx (0, 0) with hcdef
    have hcmem : c ∈ s.blanksInProcess := listGetD_mem _ idx (0, 0) hms1
    obtain ⟨hc1, hc2, hc0⟩ := hinv.pool_blank hw.square c hcmem
    have hopts := options_eq_gridOptions c s.grid s.record sub hinv.coh hsqS
      (by omega) (by omega)
    have hlenc : (gridOptions s.grid c sub).length =
        countOptions g0.length c s.record sub := (hcnt c hcmem).symm
    have hcne : ((options c s.grid s.record sub).1.isEmpty) = false := by
      rw [hopts.1]
      have := hc c hcmem
      rw [hcnt c hcmem] at this
      rcases hx : gridOptions s.grid c sub with - | ⟨a, l⟩
      · rw [hx] at this
        simp at this
      · simp
    have hmrv : ∀ b ∈ s.blanksInProcess,
        (gridOptions s.grid c sub).length ≤ (gridOptions s.grid b sub).length := by
      intro b hb
      obtain ⟨j, hjl, hjp⟩ := List.mem_iff_getElem.mp hb
      have h3j := hms3 j hjl
      rw [listGetD_eq_getElem _ j (0, 0) hjl, hjp] at h3j
      have h2' := hms2
      rw [hcountfix c hcmem, hcnt c hcmem] at h2'
      rw [hcountfix b hb, hcnt b hb] at h3j
      omega
    have hnodupP : s.blanksInProcess.Nodup := hinv.nodup.of_append_right
    have herase : s.blanksInProcess.eraseIdx idx = s.blanksInProcess.erase c :=
      eraseIdx_eq_erase_getD s.blanksInProcess idx hnodupP hms1
    refine ⟨c, hcmem, hmrv, by
      intro hx
      rw [hopts.1] at hcne
      rw [hx] at hcne
      simp at hcne, ?_⟩
    simp only [push, hpoolE, Bool.false_eq_true, if_false, hzb, hgd0]
    rw [show (options (s.blanksInProcess.getD idx (0, 0)) s.grid s.record sub) =
      options c s.grid s.record sub from rfl]
    simp only [hcne, Bool.false_eq_true, if_false]
    rw [hopts.1, hopts.2, setCell_setCell, herase]

/-! ### Small list helpers -/

theorem getD_zero_eq_headD {α : Type} (l : List α) (d : α) : l.getD 0 d = l.headD d := by
  cases l <;> rfl

theorem headD_mem {α : Type} (l : List α) (d : α) (h : l ≠ []) : l.headD d ∈ l := by
  cases l with
  | nil => exact absurd rfl h
  | cons x xs => simp

theorem getLastD_eq_getD {α : Type} (l : List α) :
    ∀ d : α, l.getLastD d = l.getD (l.length - 1) d := by
  induction l with
  | nil => intro d; rfl
  | cons x xs ih =>
    intro d
    cases xs with
    | nil => rfl
    | cons y ys =>
      rw [List.getLastD_cons, ih x]
      have h1 : (y :: ys).length - 1 < (y :: ys).length := by simp
      have h2 : (x :: y :: ys).length - 1 = ((y :: ys).length - 1) + 1 := by simp
      rw [h2, List.getD_cons_succ, listGetD_eq_getElem _ _ x h1,
        listGetD_eq_getElem _ _ d h1]

theorem listGetD_mem_of_lt {α : Type} (l : List α) (i : Nat) (d : α) (h : i < l.length) :
    l.getD i d ∈ l := listGetD_mem l i d h

theorem frameCoords_markRevisited (st : List stackData) :
    frameCoords (markRevisited st) = frameCoords st := by
  cases st <;> rfl

theorem placeAll_markRevisited (g : Grid) (st : List stackData) :
    placeAll g (markRevisited st) = placeAll g st := by
  cases st <;> rfl

theorem FramesInv_markRevisited (g0 : Grid) (sub : Nat) (st : List stackData)
    (h : FramesInv g0 sub st) : FramesInv g0 sub (markRevisited st) := by
  cases st with
  | nil => trivial
  | cons f rest =>
    obtain ⟨h1, h2, h3, h4, h5, h6⟩ := h
    exact ⟨h1, h2, fun hx => by simp at hx, h4, h5, h6⟩

/-! ### Placing one digit lowers any other blank's option count by at most one -/

theorem filter_length_mono_of_imp {p q : Nat → Bool} (ks : List Nat)
    (h : ∀ k ∈ ks, p k = true → q k = true) :
    (ks.filter p).length ≤ (ks.filter q).length := by
  induction ks with
  | nil => simp
  | cons k ks ih =>
    have htail := ih fun j hj => h j (List.mem_cons_of_mem k hj)
    by_cases hp : p k
    · rw [List.filter_cons_of_pos hp, List.filter_cons_of_pos (h k (by simp) hp)]
      simpa using htail
    · rw [List.filter_cons_of_neg (by simpa using hp)]
      cases hq : q k
      · rw [List.filter_cons_of_neg (by simp [hq])]
        exact htail
      · rw [List.filter_cons_of_pos hq]
        simp only [List.length_cons]
        omega

theorem filter_length_le_succ {p q : Nat → Bool} (ks : List Nat) (hnd : ks.Nodup)
    (k0 : Nat) (hdiff : ∀ k ∈ ks, p k = true → q k = false → k = k0) :
    (ks.filter p).length ≤ (ks.filter q).length + 1 := by
  induction ks with
  | nil => simp
  | cons k ks ih =>
    have hnd' := (List.nodup_cons.mp hnd).2
    have hknot := (List.nodup_cons.mp hnd).1
    by_cases hp : p k
    · cases hq : q k
      · have hk0 : k = k0 := hdiff k (by simp) hp hq
        subst hk0
        have hmono : (ks.filter p).length ≤ (ks.filter q).length := by
          apply filter_length_mono_of_imp
          intro j hj hpj
          cases hqj : q j
          · exact absurd (hdiff j (List.mem_cons_of_mem _ hj) hpj hqj) (by
              intro hx
              rw [hx] at hj
              exact hknot hj)
          · rfl
        rw [List.filter_cons_of_pos hp, List.filter_cons_of_neg (by simp [hq])]
        simp only [List.length_cons]
        omega
      · have := ih hnd' fun j hj hpj hqj => hdiff j (List.mem_cons_of_mem _ hj) hpj hqj
        rw [List.filter_cons_of_pos hp, List.filter_cons_of_pos hq]
        simp only [List.length_cons]
        omega
    · have := ih hnd' fun j hj hpj hqj => hdiff j (List.mem_cons_of_mem _ hj) hpj hqj
      rw [List.filter_cons_of_neg (by simpa using hp)]
      cases hq : q k
      · rw [List.filter_cons_of_neg (by simp [hq])]
        exact this
      · rw [List.filter_cons_of_pos hq]
        simp only [List.length_cons]
        omega

theorem gridOptions_length_drop (g : Grid) (c b : Coord) (d : Nat) (sub : Nat)
    (hsq : Square g) (h1 : c.1 < g.length) (h2 : c.2 < g.length)
    (h0 : cellAt g c = 0) :
    (gridOptions g b sub).length ≤ (gridOptions (setCell g c d) b sub).length + 1 := by
  rw [gridOptions, gridOptions, List.length_map, List.length_map, length_setCell]
  apply filter_length_le_succ _ (List.nodup_range g.length) (d - 1)
  intro k hk hp hq
  have hsq' : Square (setCell g c d) := square_setCell g c d hsq
  have hlen' : (setCell g c d).length = g.length := length_setCell g c d
  rw [← Bool.not_eq_true] at hq
  rw [gridConsistentB_iff _ _ _ _ hsq'] at hq
  push_neg at hq
  obtain ⟨q, hq1, hq2, hcell, hpair⟩ := hq
  rw [hlen'] at hq1 hq2
  by_cases hqc : q = c
  · subst hqc
    have : cellAt (setCell g q d) q = d := cellAt_setCell_self g q d h1 (by
      rw [getD_length_of_square g hsq q.1 h1]
      exact h2)
    rw [this] at hcell
    omega
  · rw [cellAt_setCell_ne g c q d hqc] at hcell
    have hgp := (gridConsistentB_iff g (k + 1) b sub hsq).mp hp q hq1 hq2 hcell
    exact absurd hgp (by simpa using hpair)

/-! ### State facts about the top frame, and the three mutators -/

theorem top_frame_facts (g0 : Grid) (sub : Nat) (s : SolveState) (f : stackData)
    (rest : List stackData) (hw : WellFormed g0 sub) (hinv : Inv g0 sub s)
    (hstack : s.stack = f :: rest) :
    frameDigit f ∈ f.choices ∧
    1 ≤ frameDigit f ∧
    f.coordinates.1 < g0.length ∧ f.coordinates.2 < g0.length ∧
    cellAt g0 f.coordinates = 0 ∧
    f.coordinates ∉ frameCoords rest ∧
    cellAt (placeAll g0 rest) f.coordinates = 0 ∧
    s.grid = setCell (placeAll g0 rest) f.coordinates (frameDigit f) ∧
    cellAt s.grid f.coordinates = frameDigit f := by
  have hframes := hinv.frames
  rw [hstack] at hframes
  obtain ⟨hfr, hidx, hfresh, hblank, hch, hE⟩ := hframes
  have hdmem : frameDigit f ∈ f.choices := listGetD_mem f.choices f.index 0 hidx
  have hdopt : frameDigit f ∈ gridOptions (placeAll g0 rest) f.coordinates sub := by
    rw [← hch]; exact hdmem
  have hd1 : 1 ≤ frameDigit f :=
    ((mem_gridOptions _ _ _ _).mp hdopt).1
  obtain ⟨hc1, hc2, hc0⟩ := (mem_blankSquares g0 hw.square f.coordinates).mp hblank
  have hnf : f.coordinates ∉ frameCoords rest := by
    have hnd := hinv.nodup
    rw [hstack] at hnd
    have : (f.coordinates :: (frameCoords rest ++ s.blanksInProcess)).Nodup := by
      simpa [frameCoords] using hnd
    intro hx
    exact (List.nodup_cons.mp this).1 (List.mem_append_left _ hx)
  have hbelow : cellAt (placeAll g0 rest) f.coordinates = 0 := by
    rw [cellAt_placeAll_notin g0 rest _ hnf]; exact hc0
  have hge : s.grid = setCell (placeAll g0 rest) f.coordinates (frameDigit f) := by
    rw [hinv.gridEq, hstack, placeAll_cons, place]
  have hcell : cellAt s.grid f.coordinates = frameDigit f := by
    rw [hge]
    exact cellAt_setCell_self _ _ _ (by rw [length_placeAll]; exact hc1) (by
      rw [getD_length_of_square _ (square_placeAll g0 rest hw.square) _
        (by rw [length_placeAll]; exact hc1), length_placeAll]
      exact hc2)
  exact ⟨hdmem, hd1, hc1, hc2, hc0, hnf, hbelow, hge, hcell⟩

theorem perm_cons_erase_coord (l : List Coord) (a : Coord) (h : a ∈ l) :
    l.Perm (a :: l.erase a) := by
  induction l with
  | nil => cases h
  | cons x xs ih =>
    by_cases hx : x = a
    · subst hx
      rw [List.erase_cons_head]
    · rw [List.erase_cons_tail (by simpa using hx)]
      have hmem : a ∈ xs := by
        rcases List.mem_cons.mp h with h | h
        · exact absurd h.symm hx
        · exact h
      exact ((ih hmem).cons x).trans (List.Perm.swap a x (xs.erase a))

theorem push_inv (g0 : Grid) (sub : Nat) (s : SolveState) (hw : WellFormed g0 sub)
    (hinv : Inv g0 sub s) (c : Coord) (hcmem : c ∈ s.blanksInProcess)
    (hone : gridOptions s.grid c sub ≠ [])
    (hmrv : ∀ b ∈ s.blanksInProcess,
      (gridOptions s.grid c sub).length ≤ (gridOptions s.grid b sub).length) :
    Inv g0 sub
      { grid := setCell s.grid c ((gridOptions s.grid c sub).headD 0),
        record := recordAdd s.record ((gridOptions s.grid c sub).headD 0) c,
        blanksInProcess := s.blanksInProcess.erase c,
        stack := ⟨c, gridOptions s.grid c sub, 0, false⟩ :: s.stack } := by
  obtain ⟨hc1, hc2, hc0⟩ := hinv.pool_blank hw.square c hcmem
  have hsqS : Square s.grid := hinv.gridSquare hw.square
  have hlenS : s.grid.length = g0.length := hinv.gridLength
  have hdmem : (gridOptions s.grid c sub).headD 0 ∈ gridOptions s.grid c sub :=
    headD_mem _ 0 hone
  have hd1 : 1 ≤ (gridOptions s.grid c sub).headD 0 :=
    ((mem_gridOptions _ _ _ _).mp hdmem).1
  have hpoolperm : s.blanksInProcess.Perm (c :: s.blanksInProcess.erase c) :=
    perm_cons_erase_coord s.blanksInProcess c hcmem
  have hchain :
      (frameCoords (⟨c, gridOptions s.grid c sub, 0, false⟩ :: s.stack) ++
        s.blanksInProcess.erase c).Perm
      (frameCoords s.stack ++ s.blanksInProcess) := by
    have h1 : frameCoords (⟨c, gridOptions s.grid c sub, 0, false⟩ :: s.stack) ++
        s.blanksInProcess.erase c =
        c :: (frameCoords s.stack ++ s.blanksInProcess.erase c) := by
      simp [frameCoords]
    rw [h1]
    exact (List.perm_middle.symm).trans ((hpoolperm.symm).append_left (frameCoords s.stack))
  refine ⟨?_, ?_, ?_, ?_, ?_⟩
  · show setCell s.grid c ((gridOptions s.grid c sub).headD 0) =
      placeAll g0 (⟨c, gridOptions s.grid c sub, 0, false⟩ :: s.stack)
    rw [placeAll_cons, place, ← hinv.gridEq]
    congr 1
    rw [frameDigit]
    exact (getD_zero_eq_headD _ 0).symm
  · exact hchain.trans hinv.perm
  · exact (hchain.nodup_iff).mpr hinv.nodup
  · exact coherent_add s.record s.grid c _ hinv.coh hsqS (by omega) (by omega) hc0 hd1
  · refine ⟨hinv.frames, List.length_pos.mpr hone, fun _ => rfl,
      hinv.pool_subset c hcmem, by rw [← hinv.gridEq], ?_⟩
    intro b hb hnf
    have hbp := hinv.blank_cases b hb hnf
    rw [← hinv.gridEq]
    exact hmrv b hbp

theorem pop_spec (g0 : Grid) (sub : Nat) (s : SolveState) (f : stackData)
    (rest : List stackData) (hw : WellFormed g0 sub) (hinv : Inv g0 sub s)
    (hstack : s.stack = f :: rest) (hlast : f.index + 1 = f.choices.length) :
    pop s = .ok { grid := setCell s.grid f.coordinates 0,
                  record := recordSet s.record (frameDigit f)
                    ((s.record (frameDigit f)).erase f.coordinates),
                  blanksInProcess := s.blanksInProcess ++ [f.coordinates],
                  stack := markRevisited rest } ∧
    Inv g0 sub { grid := setCell s.grid f.coordinates 0,
                 record := recordSet s.record (frameDigit f)
                   ((s.record (frameDigit f)).erase f.coordinates),
                 blanksInProcess := s.blanksInProcess ++ [f.coordinates],
                 stack := markRevisited rest } := by
  obtain ⟨hdmem, hd1, hc1, hc2, hc0, hnf, hbelow, hge, hcell⟩ :=
    top_frame_facts g0 sub s f rest hw hinv hstack
  have hsqS : Square s.grid := hinv.gridSquare hw.square
  have hlenS : s.grid.length = g0.length := hinv.gridLength
  have hchne : f.choices.isEmpty = false := by
    rcases hx : f.choices with - | ⟨a, l⟩
    · rw [hx] at hlast
      simp at hlast
    · simp
  have hlastd : f.choices.getLastD 0 = frameDigit f := by
    rw [getLastD_eq_getD, frameDigit]
    congr 1
    omega
  have hcmemrec : f.coordinates ∈ s.record (frameDigit f) := by
    refine ((hinv.coh (frameDigit f) hd1).2 f.coordinates).mpr ?_
    exact ⟨by omega, by omega, hcell⟩
  constructor
  · simp only [pop, hstack, hchne, Bool.false_eq_true, if_false, hlastd,
      if_pos hcmemrec]
  · have hgrid' : setCell s.grid f.coordinates 0 = placeAll g0 (markRevisited rest) := by
      rw [placeAll_markRevisited, hge, setCell_setCell]
      exact setCell_eq_self (placeAll g0 rest) f.coordinates
        (square_placeAll g0 rest hw.square) (by rw [length_placeAll]; exact hc1)
        (by rw [length_placeAll]; exact hc2) hbelow
    have hperm' : (frameCoords (markRevisited rest) ++
        (s.blanksInProcess ++ [f.coordinates])).Perm
        (frameCoords s.stack ++ s.blanksInProcess) := by
      rw [frameCoords_markRevisited, hstack]
      have h1 : frameCoords (f :: rest) ++ s.blanksInProcess =
          f.coordinates :: (frameCoords rest ++ s.blanksInProcess) := by
        simp [frameCoords]
      rw [h1]
      exact ((List.perm_append_comm).append_left (frameCoords rest)).trans
        List.perm_middle

    refine ⟨hgrid', hperm'.trans hinv.perm, ?_, ?_, ?_⟩
    · exact (hperm'.nodup_iff).mpr hinv.nodup
    · have := coherent_remove s.record s.grid f.coordinates (frameDigit f)
        hinv.coh hsqS (by omega) (by omega) hcell hd1
      exact this
    · apply FramesInv_markRevisited
      have hframes := hinv.frames
      rw [hstack] at hframes
      exact hframes.1

theorem increment_spec (g0 : Grid) (sub : Nat) (s : SolveState) (f : stackData)
    (rest : List stackData) (hw : WellFormed g0 sub) (hinv : Inv g0 sub s)
    (hstack : s.stack = f :: rest) (hadv : f.index + 1 < f.choices.length)
    (hrev : f.revisited = true) :
    increment s = .ok
      { grid := setCell s.grid f.coordinates (f.choices.getD (f.index + 1) 0),
        record := recordAdd (recordSet s.record (frameDigit f)
          ((s.record (frameDigit f)).erase f.coordinates))
          (f.choices.getD (f.index + 1) 0) f.coordinates,
        blanksInProcess := s.blanksInProcess,
        stack := { f with index := f.index + 1 } :: rest } ∧
    Inv g0 sub
      { grid := setCell s.grid f.coordinates (f.choices.getD (f.index + 1) 0),
        record := recordAdd (recordSet s.record (frameDigit f)
          ((s.record (frameDigit f)).erase f.coordinates))
          (f.choices.getD (f.index + 1) 0) f.coordinates,
        blanksInProcess := s.blanksInProcess,
        stack := { f with index := f.index + 1 } :: rest } := by
  obtain ⟨hdmem, hd1, hc1, hc2, hc0, hnf, hbelow, hge, hcell⟩ :=
    top_frame_facts g0 sub s f rest hw hinv hstack
  have hsqS : Square s.grid := hinv.gridSquare hw.square
  have hlenS : s.grid.length = g0.length := hinv.gridLength
  have hframes := hinv.frames
  rw [hstack] at hframes
  obtain ⟨hfr, hidx, hfresh, hblank, hch, hE⟩ := hframes
  have hcmemrec : f.coordinates ∈ s.record (cellAt s.grid f.coordinates) := by
    rw [hcell]
    exact ((hinv.coh (frameDigit f) hd1).2 f.coordinates).mpr ⟨by omega, by omega, hcell⟩
  have hnewmem : f.choices.getD (f.index + 1) 0 ∈ f.choices :=
    listGetD_mem f.choices (f.index + 1) 0 hadv
  have hnew1 : 1 ≤ f.choices.getD (f.index + 1) 0 := by
    have : f.choices.getD (f.index + 1) 0 ∈
        gridOptions (placeAll g0 rest) f.coordinates sub := by
      rw [← hch]; exact hnewmem
    exact ((mem_gridOptions _ _ _ _).mp this).1
  constructor
  · simp only [increment, hstack]
    rw [if_neg (by omega), hcell, if_pos (by rw [← hcell]; exact hcmemrec)]
  · have hsq0' : Square (setCell s.grid f.coordinates 0) :=
      square_setCell _ _ _ hsqS
    have hcoh1 : Coherent (recordSet s.record (frameDigit f)
        ((s.record (frameDigit f)).erase f.coordinates))
        (setCell s.grid f.coordinates 0) :=
      coherent_remove s.record s.grid f.coordinates (frameDigit f)
        hinv.coh hsqS (by omega) (by omega) hcell hd1
    have hc0' : cellAt (setCell s.grid f.coordinates 0) f.coordinates = 0 :=
      cellAt_setCell_self s.grid f.coordinates 0 (by omega) (by
        rw [getD_length_of_square s.grid hsqS _ (by omega)]
        omega)
    have hcoh2 := coherent_add _ _ f.coordinates (f.choices.getD (f.index + 1) 0)
      hcoh1 hsq0' (by rw [length_setCell]; omega) (by rw [length_setCell]; omega)
      hc0' hnew1
    rw [setCell_setCell] at hcoh2
    refine ⟨?_, ?_, ?_, hcoh2, ?_⟩
    · show setCell s.grid f.coordinates (f.choices.getD (f.index + 1) 0) =
        placeAll g0 ({ f with index := f.index + 1 } :: rest)
      rw [placeAll_cons, place, hge, setCell_setCell]
      rfl
    · have : frameCoords ({ f with index := f.index + 1 } :: rest) ++ s.blanksInProcess =
          frameCoords (f :: rest) ++ s.blanksInProcess := by
        simp [frameCoords]
      rw [this, ← hstack]
      exact hinv.perm
    · have : frameCoords ({ f with index := f.index + 1 } :: rest) ++ s.blanksInProcess =
          frameCoords (f :: rest) ++ s.blanksInProcess := by
        simp [frameCoords]
      rw [this, ← hstack]
      exact hinv.nodup
    · refine ⟨hfr, hadv, ?_, hblank, hch, hE⟩
      intro hx
      have hx' : f.revisited = false := hx
      rw [hrev] at hx'
      cases hx'

/-! ### The termination measure of the main loop -/

/-- Choices remaining strictly after the cursor of a frame. -/
def frameX (f : stackData) : Nat := f.choices.length - 1 - f.index

/-- The measure value of the top frame (a fresh top still owes its first
exploration). -/
def topVal (f : stackData) : Nat :=
  2 * frameX f + (if f.revisited then 0 else 1) + 1

/-- The measure value of a non-top frame. -/
def bodyVal (f : stackData) : Nat := 2 * frameX f + 1

/-- Weighted sum over the frames below the top, bottom first, with
decreasing powers of the base. -/
def nuBody (C : Nat) : List stackData → Nat → Nat
  | [], _ => 0
  | f :: above, e => bodyVal f * C ^ e + nuBody C above (e - 1)

/-- The loop measure: a lexicographic word over the stack, encoded in
base `C`; every reachable loop iteration strictly decreases it. -/
def nu (C B : Nat) : List stackData → Nat
  | [] => 0
  | f :: rest => nuBody C rest.reverse (B - 1) + topVal f * C ^ (B - (rest.length + 1))

theorem nuBody_append (C : Nat) (r1 r2 : List stackData) :
    ∀ e, nuBody C (r1 ++ r2) e = nuBody C r1 e + nuBody C r2 (e - r1.length) := by
  induction r1 with
  | nil => intro e; simp [nuBody]
  | cons f r1 ih =>
    intro e
    show bodyVal f * C ^ e + nuBody C (r1 ++ r2) (e - 1) =
      bodyVal f * C ^ e + nuBody C r1 (e - 1) + nuBody C r2 (e - (f :: r1).length)
    rw [ih (e - 1), show e - 1 - r1.length = e - (f :: r1).length from by simp; omega]
    omega

theorem nu_markRevisited (C B : Nat) (rest : List stackData) :
    nu C B (markRevisited rest) = nuBody C rest.reverse (B - 1) := by
  cases rest with
  | nil => rfl
  | cons g rs =>
    show nuBody C rs.reverse (B - 1) +
        topVal { g with revisited := true } * C ^ (B - (rs.length + 1)) =
      nuBody C (g :: rs).reverse (B - 1)
    have h1 : topVal { g with revisited := true } = bodyVal g := by
      simp [topVal, bodyVal, frameX]
    have h2 : (g :: rs).reverse = rs.reverse ++ [g] := by simp
    rw [h1, h2, nuBody_append]
    simp only [nuBody, List.length_reverse]
    have : B - 1 - rs.length = B - (rs.length + 1) := by omega
    rw [this]
    omega

theorem mul_pow_lt_pow (C a e : Nat) (ha : a < C) (he : 1 ≤ e) :
    a * C ^ (e - 1) < C ^ e := by
  have hC : 1 ≤ C := by omega
  have hpos : 0 < C ^ (e - 1) := Nat.pos_pow_of_pos _ (by omega)
  calc a * C ^ (e - 1) < C * C ^ (e - 1) :=
        Nat.mul_lt_mul_of_lt_of_le ha (le_refl _) hpos
    _ = C ^ e := by
        rw [← Nat.pow_succ']
        congr 1
        omega

/-- Pushing a fresh frame onto a nonempty stack whose top is fresh
strictly decreases the measure (the old top loses its freshness bonus,
which dominates the new frame's value). -/
theorem nu_push_fresh (C B : Nat) (nf f : stackData) (rest : List stackData)
    (hfresh : f.revisited = false) (hklt : rest.length + 1 < B)
    (hnf : topVal nf < C) :
    nu C B (nf :: f :: rest) < nu C B (f :: rest) := by
  show nuBody C (f :: rest).reverse (B - 1) + topVal nf * C ^ (B - (rest.length + 1 + 1)) <
    nuBody C rest.reverse (B - 1) + topVal f * C ^ (B - (rest.length + 1))
  have h2 : (f :: rest).reverse = rest.reverse ++ [f] := by simp
  rw [h2, nuBody_append]
  simp only [nuBody, List.length_reverse]
  have he1 : B - 1 - rest.length = B - (rest.length + 1) := by omega
  rw [he1]
  have hbt : bodyVal f + 1 = topVal f := by
    simp [topVal, bodyVal, hfresh]
  have hexp : B - (rest.length + 1 + 1) = (B - (rest.length + 1)) - 1 := by omega
  rw [hexp]
  have hlt : topVal nf * C ^ ((B - (rest.length + 1)) - 1) < C ^ (B - (rest.length + 1)) :=
    mul_pow_lt_pow C (topVal nf) (B - (rest.length + 1)) hnf (by omega)
  have hsplit : topVal f * C ^ (B - (rest.length + 1)) =
      bodyVal f * C ^ (B - (rest.length + 1)) + C ^ (B - (rest.length + 1)) := by
    rw [← hbt]
    ring
  omega

/-- Incrementing the (revisited) top frame and then pushing a fresh frame
strictly decreases the measure. -/
theorem nu_increment_push (C B : Nat) (nf f : stackData) (rest : List stackData)
    (hrev : f.revisited = true) (hadv : f.index + 1 < f.choices.length)
    (hklt : rest.length + 1 < B) (hnf : topVal nf < C) :
    nu C B (nf :: { f with index := f.index + 1 } :: rest) < nu C B (f :: rest) := by
  show nuBody C ({ f with index := f.index + 1 } :: rest).reverse (B - 1) +
      topVal nf * C ^ (B - (rest.length + 1 + 1)) <
    nuBody C rest.reverse (B - 1) + topVal f * C ^ (B - (rest.length + 1))
  have h2 : ({ f with index := f.index + 1 } :: rest).reverse =
      rest.reverse ++ [{ f with index := f.index + 1 }] := by simp
  rw [h2, nuBody_append]
  simp only [nuBody, List.length_reverse]
  have he1 : B - 1 - rest.length = B - (rest.length + 1) := by omega
  rw [he1]
  have hexp : B - (rest.length + 1 + 1) = (B - (rest.length + 1)) - 1 := by omega
  rw [hexp]
  have hlt : topVal nf * C ^ ((B - (rest.length + 1)) - 1) < C ^ (B - (rest.length + 1)) :=
    mul_pow_lt_pow C (topVal nf) (B - (rest.length + 1)) hnf (by omega)
  have hbody : bodyVal { f with index := f.index + 1 } + 2 = topVal f := by
    simp only [bodyVal, topVal, hrev, if_pos, frameX]
    omega
  have hsplit : topVal f * C ^ (B - (rest.length + 1)) =
      bodyVal { f with index := f.index + 1 } * C ^ (B - (rest.length + 1)) +
        2 * C ^ (B - (rest.length + 1)) := by
    rw [← hbody]
    ring
  rw [hsplit]
  have hpos : 0 < C ^ (B - (rest.length + 1)) := Nat.pos_pow_of_pos _ (by omega)
  omega

/-- Popping the top frame strictly decreases the measure. -/
theorem nu_pop (C B : Nat) (f : stackData) (rest : List stackData) (hC : 1 ≤ C) :
    nu C B (markRevisited rest) < nu C B (f :: rest) := by
  rw [nu_markRevisited]
  show nuBody C rest.reverse (B - 1) <
    nuBody C rest.reverse (B - 1) + topVal f * C ^ (B - (rest.length + 1))
  have h1 : 1 ≤ topVal f := by simp only [topVal]; omega
  have hpos : 0 < C ^ (B - (rest.length + 1)) := Nat.pos_pow_of_pos _ (by omega)
  have := Nat.mul_le_mul h1 (le_refl (C ^ (B - (rest.length + 1))))
  omega

/-! ### Composite operations of one loop iteration -/

/-- The state after a successful push of the blank `c`. -/
def pushedState (s : SolveState) (sub : Nat) (c : Coord) : SolveState :=
  { grid := setCell s.grid c ((gridOptions s.grid c sub).headD 0),
    record := recordAdd s.record ((gridOptions s.grid c sub).headD 0) c,
    blanksInProcess := s.blanksInProcess.erase c,
    stack := ⟨c, gridOptions s.grid c sub, 0, false⟩ :: s.stack }

/-- The state after popping the top frame `f`. -/
def poppedState (s : SolveState) (f : stackData) (rest : List stackData) : SolveState :=
  { grid := setCell s.grid f.coordinates 0,
    record := recordSet s.record (frameDigit f)
      ((s.record (frameDigit f)).erase f.coordinates),
    blanksInProcess := s.blanksInProcess ++ [f.coordinates],
    stack := markRevisited rest }

/-- The state after advancing the cursor of the top frame `f`. -/
def incrementedState (s : SolveState) (f : stackData) (rest : List stackData) : SolveState :=
  { grid := setCell s.grid f.coordinates (f.choices.getD (f.index + 1) 0),
    record := recordAdd (recordSet s.record (frameDigit f)
      ((s.record (frameDigit f)).erase f.coordinates))
      (f.choices.getD (f.index + 1) 0) f.coordinates,
    blanksInProcess := s.blanksInProcess,
    stack := { f with index := f.index + 1 } :: rest }

theorem gridOptions_length_le (g : Grid) (c : Coord) (sub : Nat) :
    (gridOptions g c sub).length ≤ g.length := by
  rw [gridOptions, List.length_map]
  calc (List.filter (fun k => gridConsistentB g (k + 1) c sub)
        (List.range g.length)).length
      ≤ (List.range g.length).length := List.length_filter_le _ _
    _ = g.length := List.length_range g.length

/-- Every blank still in the pool has at most one fewer option now than
it had below the top frame; with the MRV guarantee this bounds the top
frame's number of choices. -/
theorem pool_count_lower (g0 : Grid) (sub : Nat) (s : SolveState) (f : stackData)
    (rest : List stackData) (hw : WellFormed g0 sub) (hinv : Inv g0 sub s)
    (hstack : s.stack = f :: rest) :
    ∀ b ∈ s.blanksInProcess, f.choices.length ≤ (gridOptions s.grid b sub).length + 1 := by
  intro b hb
  obtain ⟨hdmem, hd1, hc1, hc2, hc0, hnf, hbelow, hge, hcell⟩ :=
    top_frame_facts g0 sub s f rest hw hinv hstack
  have hframes := hinv.frames
  rw [hstack] at hframes
  obtain ⟨-, -, -, -, -, hE⟩ := hframes
  have hbblank : b ∈ blankSquares g0 := hinv.pool_subset b hb
  have hbnotrest : b ∉ frameCoords rest := by
    intro hx
    refine hinv.pool_not_frame b hb ?_
    rw [hstack]
    simp only [frameCoords, List.map_cons, List.mem_cons]
    exact Or.inr (by simpa [frameCoords] using hx)
  have h1 := hE b hbblank hbnotrest
  have h2 := gridOptions_length_drop (placeAll g0 rest) f.coordinates b (frameDigit f)
    sub (square_placeAll g0 rest hw.square)
    (by rw [length_placeAll]; exact hc1) (by rw [length_placeAll]; exact hc2) hbelow
  rw [← hge] at h2
  omega

theorem tryToPush_spec (g0 : Grid) (sub : Nat) (s : SolveState) (f : stackData)
    (rest : List stackData) (hw : WellFormed g0 sub) (hinv : Inv g0 sub s)
    (hstack : s.stack = f :: rest) (hpoolne : s.blanksInProcess ≠ []) :
    (∃ c, c ∈ s.blanksInProcess ∧ gridOptions s.grid c sub ≠ [] ∧
      tryToPush s sub = .ok (pushedState s sub c) ∧ Inv g0 sub (pushedState s sub c)) ∨
    (f.choices.length = 1 ∧ f.index = 0 ∧
      tryToPush s sub = .ok (poppedState s f rest) ∧ Inv g0 sub (poppedState s f rest)) := by
  obtain ⟨hfail, hok⟩ := push_spec g0 sub s hw hinv hpoolne
  by_cases hC : ∀ b ∈ s.blanksInProcess, 1 ≤ countOptions g0.length b s.record sub
  · obtain ⟨c, hcmem, hmrv, hone, hpush⟩ := hok hC
    left
    refine ⟨c, hcmem, hone, ?_, push_inv g0 sub s hw hinv c hcmem hone hmrv⟩
    have hunfold : tryToPush s sub = (do
        let r ← push s sub
        if r.1 then pure r.2 else pop r.2) := rfl
    rw [hunfold, hpush]
    rfl
  · have hpush := hfail hC
    push_neg at hC
    obtain ⟨b, hbmem, hbcnt⟩ := hC
    have hbz : countOptions g0.length b s.record sub = 0 := by omega
    have hbg : (gridOptions s.grid b sub).length = 0 := by
      have := countOptions_eq_gridOptions_length s.record s.grid b sub hinv.coh
        (hinv.gridSquare hw.square)
      rw [hinv.gridLength] at this
      omega
    have hlow := pool_count_lower g0 sub s f rest hw hinv hstack b hbmem
    have hidx : f.index < f.choices.length := by
      have hframes := hinv.frames
      rw [hstack] at hframes
      exact hframes.2.1
    have hlen1 : f.choices.length = 1 := by omega
    have hidx0 : f.index = 0 := by omega
    have hlast : f.index + 1 = f.choices.length := by omega
    obtain ⟨hpop, hpopinv⟩ := pop_spec g0 sub s f rest hw hinv hstack hlast
    right
    refine ⟨hlen1, hidx0, ?_, hpopinv⟩
    have hunfold : tryToPush s sub = (do
        let r ← push s sub
        if r.1 then pure r.2 else pop r.2) := rfl
    rw [hunfold, hpush]
    show pop s = .ok (poppedState s f rest)
    exact hpop

theorem incrementPush_spec (g0 : Grid) (sub : Nat) (s : SolveState) (f : stackData)
    (rest : List stackData) (hw : WellFormed g0 sub) (hinv : Inv g0 sub s)
    (hstack : s.stack = f :: rest) (hadv : f.index + 1 < f.choices.length)
    (hrev : f.revisited = true) (hpoolne : s.blanksInProcess ≠ []) :
    ∃ c, c ∈ s.blanksInProcess ∧
      incrementPush s sub = .ok (pushedState (incrementedState s f rest) sub c) ∧
      Inv g0 sub (pushedState (incrementedState s f rest) sub c) := by
  obtain ⟨hinc, hinv1⟩ := increment_spec g0 sub s f rest hw hinv hstack hadv hrev
  have hinc' : increment s = .ok (incrementedState s f rest) := hinc
  have hs1stack : (incrementedState s f rest).stack = { f with index := f.index + 1 } :: rest :=
    rfl
  have hinv1' : Inv g0 sub (incrementedState s f rest) := hinv1
  have hpool1 : (incrementedState s f rest).blanksInProcess ≠ [] := hpoolne
  rcases tryToPush_spec g0 sub (incrementedState s f rest) { f with index := f.index + 1 }
      rest hw hinv1' hs1stack hpool1 with
    ⟨c, hcmem, hcne, htry, hinvp⟩ | ⟨hlen1, -, -, -⟩
  · refine ⟨c, hcmem, ?_, hinvp⟩
    have hunfold : incrementPush s sub = (do
        let s1 ← increment s
        let s2 ← tryToPush s1 sub
        if s2.stack.isEmpty && !s2.blanksInProcess.isEmpty then
          let r ← push s2 sub
          pure r.2
        else pure s2) := rfl
    rw [hunfold, hinc']
    show (do
        let s2 ← tryToPush (incrementedState s f rest) sub
        if s2.stack.isEmpty && !s2.blanksInProcess.isEmpty then
          let r ← push s2 sub
          pure r.2
        else pure s2 : Except String SolveState) = _
    rw [htry]
    rfl
  · have : ({ f with index := f.index + 1 } : stackData).choices.length =
        f.choices.length := rfl
    omega

theorem stepIter_spec (g0 : Grid) (sub : Nat) (s : SolveState) (hw : WellFormed g0 sub)
    (hinv : Inv g0 sub s) (hne : s.stack ≠ [])
    (hnb : s.stack.length ≠ (blankSquares g0).length) :
    ∃ s', stepIter (blankSquares g0).length s sub = .ok (.next s') ∧ Inv g0 sub s' ∧
      nu (2 * g0.length + 2) (blankSquares g0).length s'.stack <
        nu (2 * g0.length + 2) (blankSquares g0).length s.stack := by
  obtain ⟨f, rest, hstack⟩ : ∃ f rest, s.stack = f :: rest := by
    cases hs : s.stack with
    | nil => exact absurd hs hne
    | cons f rest => exact ⟨f, rest, rfl⟩
  have hN1 : 1 ≤ g0.length := by
    have := hw.size
    have := hw.sub_pos
    nlinarith
  have hcons := hinv.conservation
  have hklt : s.stack.length < (blankSquares g0).length := by omega
  have hpoolne : s.blanksInProcess ≠ [] := by
    intro hx
    rw [hx] at hcons
    simp at hcons
    omega
  have hrestlt : rest.length + 1 < (blankSquares g0).length := by
    rw [hstack] at hklt
    simpa using hklt
  have hidx : f.index < f.choices.length := by
    have hframes := hinv.frames
    rw [hstack] at hframes
    exact hframes.2.1
  have hstep0 : stepIter (blankSquares g0).length s sub =
      (if s.stack.length = (blankSquares g0).length then Except.ok (IterStep.done s.grid s)
       else if f.revisited && decide (f.index + 1 < f.choices.length) then
         Except.map IterStep.next (incrementPush s sub)
       else if !f.revisited then Except.map IterStep.next (tryToPush s sub)
       else Except.map IterStep.next (pop s)) := by
    unfold stepIter
    rw [hstack]
  rw [hstep0, if_neg hnb]
  cases hrevb : f.revisited with
  | true =>
    by_cases hadvb : f.index + 1 < f.choices.length
    · rw [if_pos (by simp [hrevb, hadvb])]
      obtain ⟨c, hcmem, hip, hinvp⟩ :=
        incrementPush_spec g0 sub s f rest hw hinv hstack hadvb hrevb hpoolne
      refine ⟨pushedState (incrementedState s f rest) sub c, by rw [hip]; rfl, hinvp, ?_⟩
      have hsstack : (pushedState (incrementedState s f rest) sub c).stack =
          (⟨c, gridOptions (incrementedState s f rest).grid c sub, 0, false⟩ : stackData) ::
            { f with index := f.index + 1 } :: rest := rfl
      rw [hsstack, hstack]
      apply nu_increment_push _ _ _ _ _ hrevb hadvb hrestlt
      have hle : (gridOptions (incrementedState s f rest).grid c sub).length ≤ g0.length := by
        have h1 := gridOptions_length_le (incrementedState s f rest).grid c sub
        have h2 : (incrementedState s f rest).grid.length = g0.length := by
          show (setCell s.grid _ _).length = g0.length
          rw [length_setCell, hinv.gridLength]
        omega
      show 2 * frameX _ + (if (false : Bool) then 0 else 1) + 1 < 2 * g0.length + 2
      simp only [if_neg (by simp : ¬ (false : Bool) = true)]
      have hx : frameX (⟨c, gridOptions (incrementedState s f rest).grid c sub, 0, false⟩ :
          stackData) = (gridOptions (incrementedState s f rest).grid c sub).length - 1 := by
        simp [frameX]
      omega
    · rw [if_neg (by simp [hadvb]), if_neg (by simp [hrevb])]
      have hlast : f.index + 1 = f.choices.length := by omega
      obtain ⟨hpop, hpopinv⟩ := pop_spec g0 sub s f rest hw hinv hstack hlast
      refine ⟨poppedState s f rest, ?_, hpopinv, ?_⟩
      · rw [show pop s = .ok (poppedState s f rest) from hpop]
        rfl
      · have : (poppedState s f rest).stack = markRevisited rest := rfl
        rw [this, hstack]
        exact nu_pop _ _ f rest (by omega)
  | false =>
    rw [if_neg (by simp [hrevb]), if_pos (by simp [hrevb])]
    rcases tryToPush_spec g0 sub s f rest hw hinv hstack hpoolne with
      ⟨c, hcmem, hcne, htry, hinvp⟩ | ⟨hlen1, hidx0, htry, hinvp⟩
    · refine ⟨pushedState s sub c, by rw [htry]; rfl, hinvp, ?_⟩
      have : (pushedState s sub c).stack =
          (⟨c, gridOptions s.grid c sub, 0, false⟩ : stackData) :: f :: rest := by
        show _ :: s.stack = _
        rw [hstack]
      rw [this, hstack]
      apply nu_push_fresh _ _ _ _ _ hrevb hrestlt
      have hle : (gridOptions s.grid c sub).length ≤ g0.length := by
        have h1 := gridOptions_length_le s.grid c sub
        have h2 := hinv.gridLength
        omega
      show 2 * frameX _ + (if (false : Bool) then 0 else 1) + 1 < 2 * g0.length + 2
      simp only [if_neg (by simp : ¬ (false : Bool) = true)]
      have hx : frameX (⟨c, gridOptions s.grid c sub, 0, false⟩ : stackData) =
          (gridOptions s.grid c sub).length - 1 := by
        simp [frameX]
      omega
    · refine ⟨poppedState s f rest, by rw [htry]; rfl, hinvp, ?_⟩
      have : (poppedState s f rest).stack = markRevisited rest := rfl
      rw [this, hstack]
      exact nu_pop _ _ f rest (by omega)

/-! ### A fully stacked state reconstructs a legal completion -/

theorem consistentPair_symm {p q : Coord} {sub : Nat}
    (h : consistentPair p q sub = true) : consistentPair q p sub = true := by
  rw [consistentPair_iff] at h ⊢
  rcases h with h | ⟨h1, h2, h3⟩
  · exact Or.inl h.symm
  · exact Or.inr ⟨fun hh => h1 hh.symm, fun hh => h2 hh.symm,
      fun hh => h3 ⟨hh.1.symm, hh.2.symm⟩⟩

theorem placeAll_filled_legal (g0 : Grid) (sub : Nat) (hw : WellFormed g0 sub) :
    ∀ st : List stackData, FramesInv g0 sub st → (frameCoords st).Nodup →
      (∀ f ∈ st, 1 ≤ frameDigit f ∧ frameDigit f ≤ g0.length ∧
        cellAt (placeAll g0 st) f.coordinates = frameDigit f) ∧
      (∀ p q : Coord, p.1 < g0.length → p.2 < g0.length → q.1 < g0.length →
        q.2 < g0.length → p ≠ q → cellAt (placeAll g0 st) p ≠ 0 →
        cellAt (placeAll g0 st) p = cellAt (placeAll g0 st) q →
        consistentPair p q sub = true) := by
  intro st
  induction st with
  | nil =>
    intro _ _
    exact ⟨by simp, fun p q h1 h2 h3 h4 hne hnz heq =>
      hw.legal p q h1 h2 h3 h4 hne hnz heq⟩
  | cons f rest ih =>
    intro hfr hnd
    obtain ⟨hfrest, hidx, -, hblank, hch, -⟩ := hfr
    have hnd' : f.coordinates ∉ frameCoords rest ∧ (frameCoords rest).Nodup := by
      rw [frameCoords, List.map_cons, List.nodup_cons] at hnd
      exact ⟨hnd.1, hnd.2⟩
    obtain ⟨hnotin, hndrest⟩ := hnd'
    obtain ⟨hfilled, hlegal⟩ := ih hfrest hndrest
    have hsq' : Square (placeAll g0 rest) := square_placeAll g0 rest hw.square
    have hlen' : (placeAll g0 rest).length = g0.length := length_placeAll g0 rest
    obtain ⟨hc1, hc2, hc0⟩ := (mem_blankSquares g0 hw.square f.coordinates).mp hblank
    have hdmem : frameDigit f ∈ f.choices := listGetD_mem f.choices f.index 0 hidx
    have hdopt : frameDigit f ∈ gridOptions (placeAll g0 rest) f.coordinates sub := by
      rw [← hch]
      exact hdmem
    obtain ⟨hd1, hd2, hdcons⟩ := (mem_gridOptions _ _ _ _).mp hdopt
    rw [hlen'] at hd2
    have hpc : placeAll g0 (f :: rest) =
        setCell (placeAll g0 rest) f.coordinates (frameDigit f) := rfl
    have hcellself : cellAt (placeAll g0 (f :: rest)) f.coordinates = frameDigit f := by
      rw [hpc]
      refine cellAt_setCell_self _ _ _ (by omega) ?_
      rw [getD_length_of_square _ hsq' _ (by omega)]
      omega
    have hcellne : ∀ q : Coord, q ≠ f.coordinates →
        cellAt (placeAll g0 (f :: rest)) q = cellAt (placeAll g0 rest) q := by
      intro q hq
      rw [hpc]
      exact cellAt_setCell_ne _ _ _ _ hq
    have hconsall := (gridConsistentB_iff (placeAll g0 rest) (frameDigit f)
      f.coordinates sub hsq').mp hdcons
    rw [hlen'] at hconsall
    constructor
    · intro f' hf'
      rcases List.mem_cons.mp hf' with rfl | hf'
      · exact ⟨hd1, hd2, hcellself⟩
      · obtain ⟨h1, h2, h3⟩ := hfilled f' hf'
        have hne' : f'.coordinates ≠ f.coordinates := by
          intro hx
          apply hnotin
          rw [← hx]
          exact List.mem_map_of_mem _ hf'
        refine ⟨h1, h2, ?_⟩
        rw [hcellne f'.coordinates hne', h3]
    · intro p q h1 h2 h3 h4 hne hnz heq
      by_cases hp : p = f.coordinates
      · subst hp
        have hqne : q ≠ f.coordinates := fun hx => hne hx.symm
        have hq' : cellAt (placeAll g0 rest) q = frameDigit f := by
          rw [← hcellne q hqne, ← heq, hcellself]
        exact hconsall q h3 h4 hq'
      · by_cases hq : q = f.coordinates
        · subst hq
          have hp' : cellAt (placeAll g0 rest) p = frameDigit f := by
            rw [← hcellne p hp, heq, hcellself]
          exact consistentPair_symm (hconsall p h1 h2 hp')
        · rw [hcellne p hp] at hnz
          rw [hcellne p hp, hcellne q hq] at heq
          exact hlegal p q h1 h2 h3 h4 hne hnz heq

/-- When the stack covers every blank, the reconstructed grid is a
completion of the original grid. -/
theorem completion_of_full (g0 : Grid) (sub : Nat) (s : SolveState)
    (hw : WellFormed g0 sub) (hinv : Inv g0 sub s)
    (hpool : s.blanksInProcess = []) : Completion s.grid g0 sub := by
  have hndf : (frameCoords s.stack).Nodup :=
    hinv.nodup.sublist (List.sublist_append_left _ _)
  obtain ⟨hfilled, hlegal⟩ := placeAll_filled_legal g0 sub hw s.stack hinv.frames hndf
  have hperm : (frameCoords s.stack).Perm (blankSquares g0) := by
    have hpm := hinv.perm
    rw [hpool, List.append_nil] at hpm
    exact hpm
  have hlenS : s.grid.length = g0.length := hinv.gridLength
  have hsqS : Square s.grid := hinv.gridSquare hw.square
  have hnoblank : ∀ p : Coord, cellAt g0 p ≠ 0 → p ∉ frameCoords s.stack := by
    intro p hb hx
    obtain ⟨-, -, h0⟩ :=
      (mem_blankSquares g0 hw.square p).mp (hinv.frames_subset p hx)
    exact hb h0
  have hfilledS : ∀ p : Coord, p.1 < g0.length → p.2 < g0.length →
      1 ≤ cellAt s.grid p ∧ cellAt s.grid p ≤ g0.length := by
    intro p hp1 hp2
    by_cases hb : cellAt g0 p = 0
    · have hpb : p ∈ blankSquares g0 :=
        (mem_blankSquares g0 hw.square p).mpr ⟨hp1, hp2, hb⟩
      have hpf : p ∈ frameCoords s.stack := hperm.mem_iff.mpr hpb
      obtain ⟨f, hf, hfc⟩ := List.mem_map.mp (by simpa [frameCoords] using hpf)
      obtain ⟨hq1, hq2, hq3⟩ := hfilled f hf
      rw [hinv.gridEq, ← hfc, hq3]
      exact ⟨hq1, hq2⟩
    · have hcell : cellAt s.grid p = cellAt g0 p := by
        rw [hinv.gridEq]
        exact cellAt_placeAll_notin g0 s.stack p (hnoblank p hb)
      rw [hcell]
      exact ⟨Nat.one_le_iff_ne_zero.mpr hb, hw.vals p hp1 hp2⟩
  refine ⟨hlenS, hsqS, ?_, ?_, ?_⟩
  · intro p hp1 hp2
    rw [hlenS] at hp1 hp2 ⊢
    exact hfilledS p hp1 hp2
  · intro p hp1 hp2 hb
    rw [hinv.gridEq]
    exact cellAt_placeAll_notin g0 s.stack p (hnoblank p hb)
  · intro p q h1 h2 h3 h4 hne heq
    rw [hlenS] at h1 h2 h3 h4
    have hnz : cellAt s.grid p ≠ 0 := by
      have := (hfilledS p h1 h2).1
      omega
    rw [hinv.gridEq] at hnz heq
    exact hlegal p q h1 h2 h3 h4 hne hnz heq

/-! ### The main loop: reachability and termination -/

theorem stepIter_nil (B sub : Nat) (s : SolveState) (h : s.stack = []) :
    stepIter B s sub = .ok (.done [] s) := by
  unfold stepIter
  rw [h]

theorem stepIter_full (B sub : Nat) (s : SolveState) (f : stackData)
    (rest : List stackData) (h : s.stack = f :: rest) (hlen : s.stack.length = B) :
    stepIter B s sub = .ok (.done s.grid s) := by
  have h0 : stepIter B s sub =
      (if s.stack.length = B then Except.ok (IterStep.done s.grid s)
       else if f.revisited && decide (f.index + 1 < f.choices.length) then
         Except.map IterStep.next (incrementPush s sub)
       else if !f.revisited then Except.map IterStep.next (tryToPush s sub)
       else Except.map IterStep.next (pop s)) := by
    unfold stepIter
    rw [h]
  rw [h0, if_pos hlen]

theorem loopRun_step (B sub fuel : Nat) (s : SolveState) (x : IterStep)
    (h : stepIter B s sub = .ok x) :
    loopRun B sub (fuel + 1) s = (match x with
      | .done r s' => .ok (some (r, s'))
      | .next s' => loopRun B sub fuel s') := by
  have h0 : loopRun B sub (fuel + 1) s =
      Except.bind (stepIter B s sub) (fun y => match y with
        | .done r s' => .ok (some (r, s'))
        | .next s' => loopRun B sub fuel s') := rfl
  have h1 := congrArg (fun t => Except.bind t (fun y => match y with
        | IterStep.done r s' => Except.ok (some (r, s'))
        | IterStep.next s' => loopRun B sub fuel s')) h
  refine h0.trans (h1.trans ?_)
  cases x <;> rfl

/-- Conditional correctness of the fuelled loop at invariant states: the
loop never signals an internal error, and any normal exit is either the
empty-stack failure exit or the full-stack success exit, reached in an
invariant state. -/
theorem loopRun_reach (g0 : Grid) (sub : Nat) (hw : WellFormed g0 sub) :
    ∀ (fuel : Nat) (s : SolveState), Inv g0 sub s →
      (∀ e, loopRun (blankSquares g0).length sub fuel s ≠ .error e) ∧
      (∀ r s', loopRun (blankSquares g0).length sub fuel s = .ok (some (r, s')) →
        Inv g0 sub s' ∧
        ((r = [] ∧ s'.stack = []) ∨
          (r = s'.grid ∧ s'.stack.length = (blankSquares g0).length))) := by
  intro fuel
  induction fuel with
  | zero =>
    intro s _
    constructor
    · intro e he
      exact absurd he (by simp [loopRun])
    · intro r s' h
      exact absurd h (by simp [loopRun])
  | succ fuel ih =>
    intro s hinv
    by_cases hnil : s.stack = []
    · have hrun : loopRun (blankSquares g0).length sub (fuel + 1) s =
          .ok (some ([], s)) :=
        loopRun_step _ sub fuel s _ (stepIter_nil _ sub s hnil)
      constructor
      · intro e he
        rw [hrun] at he
        exact absurd he (by simp)
      · intro r s' h
        rw [hrun] at h
        have h1 : ([] : Grid) = r ∧ s = s' := by
          simpa [Prod.ext_iff] using h
        obtain ⟨hr, hs⟩ := h1
        exact ⟨hs ▸ hinv, Or.inl ⟨hr.symm, hs ▸ hnil⟩⟩
    · obtain ⟨f, rest, hstack⟩ : ∃ f rest, s.stack = f :: rest := by
        cases hs : s.stack with
        | nil => exact absurd hs hnil
        | cons f rest => exact ⟨f, rest, rfl⟩
      by_cases hfull : s.stack.length = (blankSquares g0).length
      · have hrun : loopRun (blankSquares g0).length sub (fuel + 1) s =
            .ok (some (s.grid, s)) :=
          loopRun_step _ sub fuel s _ (stepIter_full _ sub s f rest hstack hfull)
        constructor
        · intro e he
          rw [hrun] at he
          exact absurd he (by simp)
        · intro r s' h
          rw [hrun] at h
          have h1 : s.grid = r ∧ s = s' := by
            simpa [Prod.ext_iff] using h
          obtain ⟨hr, hs⟩ := h1
          exact ⟨hs ▸ hinv, Or.inr ⟨by rw [← hr, hs], hs ▸ hfull⟩⟩
      · obtain ⟨s', hstep, hinv', -⟩ := stepIter_spec g0 sub s hw hinv hnil hfull
        have hrun : loopRun (blankSquares g0).length sub (fuel + 1) s =
            loopRun (blankSquares g0).length sub fuel s' :=
          loopRun_step _ sub fuel s _ hstep
        obtain ⟨iherr, ihok⟩ := ih s' hinv'
        constructor
        · intro e
          rw [hrun]
          exact iherr e
        · intro r s'' h
          rw [hrun] at h
          exact ihok r s'' h

/-- Termination: fuel exceeding the dictionary measure of the stack
suffices for the loop to reach a definite outcome. -/
theorem loopRun_terminates (g0 : Grid) (sub : Nat) (hw : WellFormed g0 sub) :
    ∀ (fuel : Nat) (s : SolveState), Inv g0 sub s →
      nu (2 * g0.length + 2) (blankSquares g0).length s.stack < fuel →
      ∃ r s', loopRun (blankSquares g0).length sub fuel s = .ok (some (r, s')) := by
  intro fuel
  induction fuel with
  | zero =>
    intro s _ h
    omega
  | succ fuel ih =>
    intro s hinv hfuel
    by_cases hnil : s.stack = []
    · exact ⟨[], s, loopRun_step _ sub fuel s _ (stepIter_nil _ sub s hnil)⟩
    · obtain ⟨f, rest, hstack⟩ : ∃ f rest, s.stack = f :: rest := by
        cases hs : s.stack with
        | nil => exact absurd hs hnil
        | cons f rest => exact ⟨f, rest, rfl⟩
      by_cases hfull : s.stack.length = (blankSquares g0).length
      · exact ⟨s.grid, s,
          loopRun_step _ sub fuel s _ (stepIter_full _ sub s f rest hstack hfull)⟩
      · obtain ⟨s', hstep, hinv', hdec⟩ := stepIter_spec g0 sub s hw hinv hnil hfull
        have hrun : loopRun (blankSquares g0).length sub (fuel + 1) s =
            loopRun (blankSquares g0).length sub fuel s' :=
          loopRun_step _ sub fuel s _ hstep
        obtain ⟨r, s'', h⟩ := ih s' hinv' (by omega)
        exact ⟨r, s'', by rw [hrun]; exact h⟩

/-! ### `backtrack`: wrappers around the loop -/

theorem nodup_blankSquares (g : Grid) : (blankSquares g).Nodup :=
  (nodup_coordsOf g).filter _

/-- The state `backtrack` builds before seeding the stack satisfies the
invariant. -/
theorem initial_inv (g0 : Grid) (sub : Nat) (hw : WellFormed g0 sub) :
    Inv g0 sub ⟨g0, occurrences g0, blankSquares g0, []⟩ := by
  refine ⟨rfl, ?_, ?_, ?_, trivial⟩
  · simp [frameCoords]
  · simpa [frameCoords] using nodup_blankSquares g0
  · exact coherent_occurrences g0 hw.square

/-- A well-formed grid with no blanks is a completion of itself. -/
theorem completion_self (g0 : Grid) (sub : Nat) (hw : WellFormed g0 sub)
    (hnb : blankSquares g0 = []) : Completion g0 g0 sub := by
  have hnoblank : ∀ p : Coord, p.1 < g0.length → p.2 < g0.length → cellAt g0 p ≠ 0 := by
    intro p h1 h2 h0
    have hmem : p ∈ blankSquares g0 :=
      (mem_blankSquares g0 hw.square p).mpr ⟨h1, h2, h0⟩
    rw [hnb] at hmem
    simp at hmem
  exact ⟨rfl, hw.square,
    fun p h1 h2 => ⟨Nat.one_le_iff_ne_zero.mpr (hnoblank p h1 h2), hw.vals p h1 h2⟩,
    fun p _ _ _ => rfl,
    fun p q h1 h2 h3 h4 hne heq =>
      hw.legal p q h1 h2 h3 h4 hne (hnoblank p h1 h2) heq⟩

/-- With blanks outstanding, `backtrack` reduces to the loop started at
an invariant state. -/
theorem backtrack_run (g0 : Grid) (sub : Nat) (hw : WellFormed g0 sub)
    (hne : blankSquares g0 ≠ []) :
    ∃ sInit, Inv g0 sub sInit ∧ ∀ fuel,
      backtrack g0 sub fuel = loopRun (blankSquares g0).length sub fuel sInit := by
  have hne' : (blankSquares g0).isEmpty = false := by
    simpa [List.isEmpty_iff] using hne
  have hb : ∀ fuel, backtrack g0 sub fuel = (do
      let r ← push ⟨g0, occurrences g0, blankSquares g0, []⟩ sub
      loopRun (blankSquares g0).length sub fuel r.2) := by
    intro fuel
    show (if (blankSquares g0).isEmpty then _ else _) = _
    rw [hne']
    rfl
  have hinv0 : Inv g0 sub ⟨g0, occurrences g0, blankSquares g0, []⟩ :=
    initial_inv g0 sub hw
  obtain ⟨hfail, hok⟩ := push_spec g0 sub _ hw hinv0 hne
  by_cases hC : ∀ b ∈ (⟨g0, occurrences g0, blankSquares g0, []⟩ : SolveState).blanksInProcess,
      1 ≤ countOptions g0.length b (⟨g0, occurrences g0, blankSquares g0, []⟩ :
        SolveState).record sub
  · obtain ⟨c, hcmem, hmrv, hone, hpush⟩ := hok hC
    refine ⟨pushedState ⟨g0, occurrences g0, blankSquares g0, []⟩ sub c,
      push_inv g0 sub _ hw hinv0 c hcmem hone hmrv, fun fuel => ?_⟩
    rw [hb fuel, hpush]
    rfl
  · have hpush := hfail hC
    refine ⟨⟨g0, occurrences g0, blankSquares g0, []⟩, hinv0, fun fuel => ?_⟩
    rw [hb fuel, hpush]
    rfl

/-- `backtrack` never reaches an internal-error branch from a well-formed
grid. -/
theorem backtrack_no_error (g0 : Grid) (sub : Nat) (hw : WellFormed g0 sub)
    (fuel : Nat) : ∀ e, backtrack g0 sub fuel ≠ .error e := by
  by_cases hnb : blankSquares g0 = []
  · intro e he
    have hb : backtrack g0 sub fuel =
        .ok (some (g0, ⟨g0, occurrences g0, blankSquares g0, []⟩)) := by
      show (if (blankSquares g0).isEmpty then _ else _) = _
      rw [hnb]
      rfl
    rw [hb] at he
    exact absurd he (by simp)
  · obtain ⟨sInit, hinv, hrun⟩ := backtrack_run g0 sub hw hnb
    intro e he
    rw [hrun fuel] at he
    exact (loopRun_reach g0 sub hw fuel sInit hinv).1 e he

/-- Any normal exit of `backtrack` is the restored-grid failure exit or a
genuine completion. -/
theorem backtrack_ok (g0 : Grid) (sub : Nat) (hw : WellFormed g0 sub)
    (fuel : Nat) (r : Grid) (s' : SolveState)
    (h : backtrack g0 sub fuel = .ok (some (r, s'))) :
    (r = [] ∧ s'.stack = [] ∧ s'.grid = g0) ∨
    (r = s'.grid ∧ Completion s'.grid g0 sub) := by
  by_cases hnb : blankSquares g0 = []
  · have hb : backtrack g0 sub fuel =
        .ok (some (g0, ⟨g0, occurrences g0, blankSquares g0, []⟩)) := by
      show (if (blankSquares g0).isEmpty then _ else _) = _
      rw [hnb]
      rfl
    rw [hb] at h
    have h1 : g0 = r ∧ (⟨g0, occurrences g0, blankSquares g0, []⟩ : SolveState) = s' := by
      simpa [Prod.ext_iff] using h
    obtain ⟨hr, hs⟩ := h1
    right
    have hsg : s'.grid = g0 := by
      rw [← hs]
    rw [hsg, ← hr]
    exact ⟨rfl, completion_self g0 sub hw hnb⟩
  · obtain ⟨sInit, hinv, hrun⟩ := backtrack_run g0 sub hw hnb
    rw [hrun fuel] at h
    obtain ⟨hinv', hcase⟩ := (loopRun_reach g0 sub hw fuel sInit hinv).2 r s' h
    rcases hcase with ⟨hr, hstk⟩ | ⟨hr, hlen⟩
    · left
      refine ⟨hr, hstk, ?_⟩
      have := hinv'.gridEq
      rw [hstk] at this
      simpa [placeAll] using this
    · right
      refine ⟨hr, ?_⟩
      have hpool : s'.blanksInProcess = [] := by
        have hcons := hinv'.conservation
        rw [hlen] at hcons
        have : s'.blanksInProcess.length = 0 := by omega
        exact List.length_eq_zero.mp this
      exact completion_of_full g0 sub s' hw hinv' hpool

/-- Enough fuel always exists for `backtrack` to reach a definite
outcome. -/
theorem backtrack_terminates (g0 : Grid) (sub : Nat) (hw : WellFormed g0 sub) :
    ∃ F, ∀ fuel, F ≤ fuel →
      ∃ r s', backtrack g0 sub fuel = .ok (some (r, s')) := by
  by_cases hnb : blankSquares g0 = []
  · refine ⟨0, fun fuel _ => ⟨g0, ⟨g0, occurrences g0, blankSquares g0, []⟩, ?_⟩⟩
    show (if (blankSquares g0).isEmpty then _ else _) = _
    rw [hnb]
    rfl
  · obtain ⟨sInit, hinv, hrun⟩ := backtrack_run g0 sub hw hnb
    refine ⟨nu (2 * g0.length + 2) (blankSquares g0).length sInit.stack + 1,
      fun fuel hF => ?_⟩
    obtain ⟨r, s', h⟩ := loopRun_terminates g0 sub hw fuel sInit hinv (by omega)
    exact ⟨r, s', by rw [hrun fuel]; exact h⟩

/-! ### The validator implies well-formedness -/

theorem checkUserGrid_wellFormed (g : Grid) (sub : Nat) (hsub : 1 ≤ sub)
    (h : checkUserGrid g (sub * sub) sub = true) : WellFormed g sub := by
  simp only [checkUserGrid, Bool.and_eq_true] at h
  obtain ⟨hfmt, hleg⟩ := h
  simp only [checkFormat, Bool.and_eq_true, beq_iff_eq, List.all_eq_true,
    decide_eq_true_eq] at hfmt
  obtain ⟨hlen, hrows⟩ := hfmt
  have hsq : Square g := by
    intro row hr
    rw [(hrows row hr).1, hlen]
  have hvals : ∀ p : Coord, p.1 < g.length → p.2 < g.length → cellAt g p ≤ g.length := by
    intro p h1 h2
    have hrow : g.getD p.1 [] = g[p.1] := getD_eq_getElem_of_lt g p.1 h1
    have hrl : (g[p.1]).length = g.length := hsq _ (g.getElem_mem h1)
    show (g.getD p.1 []).getD p.2 0 ≤ g.length
    rw [hrow, listGetD_eq_getElem _ _ _ (by rw [hrl]; exact h2)]
    have hv := (hrows _ (g.getElem_mem h1)).2 _
      (List.getElem_mem (by rw [hrl]; exact h2))
    exact le_of_le_of_eq hv hlen.symm
  simp only [checkLegal, List.all_eq_true, List.mem_range] at hleg
  refine ⟨hsub, hlen, hsq, hvals, ?_⟩
  rintro ⟨i, j⟩ ⟨I, J⟩ h1 h2 h3 h4 hne hnz heq
  have hpair : checkPair (i, j) g = true := by
    simp [checkPair, checkIndex, h1, h2]
  have hx := hleg i h1 j h2
  rw [checkLegalAt, Bool.and_eq_true, Bool.and_eq_true] at hx
  obtain ⟨⟨hH, hV⟩, hS⟩ := hx
  rw [checkHorizontal, hpair] at hH
  rw [checkVertical, hpair] at hV
  rw [checkSubgrid, hpair] at hS
  simp only [Bool.not_true, Bool.false_eq_true, if_false, if_pos hnz,
    List.all_eq_true, List.mem_range] at hH hV hS
  rw [consistentPair_iff]
  by_cases hrow : I = i
  · subst hrow
    have hJ : j ≠ J := by
      intro hx
      exact hne (by rw [hx])
    have hz := hH J h4
    rw [Bool.or_eq_true] at hz
    rcases hz with hx | hx
    · exact absurd (beq_iff_eq.mp hx) hJ
    · exact absurd heq.symm (bne_iff_ne.mp hx)
  · by_cases hcol : J = j
    · subst hcol
      have hz := hV I h3
      rw [Bool.or_eq_true] at hz
      rcases hz with hx | hx
      · exact absurd (beq_iff_eq.mp hx).symm hrow
      · exact absurd heq.symm (bne_iff_ne.mp hx)
    · refine Or.inr ⟨hrow, hcol, ?_⟩
      rintro ⟨hdr, hdc⟩
      have hIr : i - i % sub + I % sub = I := by
        have e1 := Nat.div_add_mod i sub
        have e2 := Nat.div_add_mod I sub
        have e3 : sub * (i / sub) = sub * (I / sub) := by rw [hdr]
        generalize sub * (i / sub) = A at e1 e3
        generalize sub * (I / sub) = B at e2 e3
        omega
      have hJc : j - j % sub + J % sub = J := by
        have e1 := Nat.div_add_mod j sub
        have e2 := Nat.div_add_mod J sub
        have e3 : sub * (j / sub) = sub * (J / sub) := by rw [hdc]
        generalize sub * (j / sub) = A at e1 e3
        generalize sub * (J / sub) = B at e2 e3
        omega
      have hImod : I % sub < sub := Nat.mod_lt I (by omega)
      have hJmod : J % sub < sub := Nat.mod_lt J (by omega)
      have hz := hS (I % sub) hImod (J % sub) hJmod
      rw [hIr, hJc, Bool.or_eq_true, Bool.or_eq_true] at hz
      rcases hz with (hy | hy) | hx
      · exact hrow (beq_iff_eq.mp hy).symm
      · exact hcol (beq_iff_eq.mp hy).symm
      · exact (bne_iff_ne.mp hx) heq.symm

/-! ### Concrete well-formed instances and result inversion -/

theorem wf_unit : WellFormed [[0]] 1 :=
  checkUserGrid_wellFormed [[0]] 1 (by decide) (by decide)

theorem wf_c6cex : WellFormed C6cexGrid 2 :=
  checkUserGrid_wellFormed C6cexGrid 2 (by decide) (by decide)

theorem returnedGrid_eq_some (x : Except String (Option (Grid × SolveState))) (r : Grid)
    (h : returnedGrid x = some r) : ∃ s', x = .ok (some (r, s')) := by
  cases x with
  | error e => simp [returnedGrid] at h
  | ok o =>
    cases o with
    | none => simp [returnedGrid] at h
    | some p =>
      refine ⟨p.2, ?_⟩
      have hp : p.1 = r := by simpa [returnedGrid] using h
      rw [← hp]

/-- The blocked grid of the C6 analysis has no completion: every value
for the blank at the end of the first row collides with a clue. -/
theorem C6cexGrid_unsolvable : ∀ S, ¬ Completion S C6cexGrid 2 := by
  intro S hS
  have hlen4 : S.length = 4 := hS.length_eq
  have hb : ∀ k : Nat, k < 4 → k < S.length := by
    intro k hk
    omega
  have h00 : cellAt S (0, 0) = 1 :=
    (hS.agrees (0, 0) (by decide) (by decide) (by decide)).trans (by rfl)
  have h01 : cellAt S (0, 1) = 2 :=
    (hS.agrees (0, 1) (by decide) (by decide) (by decide)).trans (by rfl)
  have h02 : cellAt S (0, 2) = 3 :=
    (hS.agrees (0, 2) (by decide) (by decide) (by decide)).trans (by rfl)
  have h13 : cellAt S (1, 3) = 4 :=
    (hS.agrees (1, 3) (by decide) (by decide) (by decide)).trans (by rfl)
  have hv1 := (hS.filled (0, 3) (hb 0 (by decide)) (hb 3 (by decide))).1
  have hv4 := (hS.filled (0, 3) (hb 0 (by decide)) (hb 3 (by decide))).2
  rw [hlen4] at hv4
  have hlegal : ∀ q : Coord, q.1 < 4 → q.2 < 4 → (0, 3) ≠ q →
      cellAt S (0, 3) = cellAt S q → consistentPair (0, 3) q 2 = true := by
    intro q h1 h2 hne heq
    exact hS.legal (0, 3) q (hb 0 (by decide)) (hb 3 (by decide)) (hb q.1 h1) (hb q.2 h2)
      hne heq
  have hcases : cellAt S (0, 3) = 1 ∨ cellAt S (0, 3) = 2 ∨
      cellAt S (0, 3) = 3 ∨ cellAt S (0, 3) = 4 := by omega
  rcases hcases with hv | hv | hv | hv
  · have hq := hlegal (0, 0) (by decide) (by decide) (by decide) (by rw [hv, h00])
    exact absurd hq (by decide)
  · have hq := hlegal (0, 1) (by decide) (by decide) (by decide) (by rw [hv, h01])
    exact absurd hq (by decide)
  · have hq := hlegal (0, 2) (by decide) (by decide) (by decide) (by rw [hv, h02])
    exact absurd hq (by decide)
  · have hq := hlegal (1, 3) (by decide) (by decide) (by decide) (by rw [hv, h13])
    exact absurd hq (by decide)

/-! ### Claims C1, C3, C4, C9, C10 -/

/-- C1: for every well-formed input grid, a non-empty grid returned by
`backtrack` is a completion: fully filled with digits `1..N`, agreeing
with the input on every originally non-zero cell, and with no two
distinct cells that share a row, a column or a subregion holding the
same digit. -/
theorem C1_soundness (g0 : Grid) (sub fuel : Nat) (hw : WellFormed g0 sub)
    (r : Grid) (hr : returnedGrid (backtrack g0 sub fuel) = some r) (hne : r ≠ []) :
    Completion r g0 sub := by
  obtain ⟨s', hx⟩ := returnedGrid_eq_some _ r hr
  rcases backtrack_ok g0 sub hw fuel r s' hx with ⟨hr0, -, -⟩ | ⟨hr0, hc⟩
  · exact absurd hr0 hne
  · rw [hr0]
    exact hc

theorem C1_soundness_witness :
    WellFormed [[0]] 1 ∧ returnedGrid (backtrack [[0]] 1 2) = some [[1]] ∧
      ([[1]] : Grid) ≠ [] ∧ Completion [[1]] [[0]] 1 :=
  ⟨wf_unit, by decide, by decide,
    C1_soundness [[0]] 1 2 wf_unit [[1]] (by decide) (by decide)⟩

/-- C3: for every well-formed input grid with no completion, enough fuel
leads `backtrack` to terminate at the empty-stack exit with the empty
result, the blanks outstanding, and the grid restored — never a partial
or incorrect grid. -/
theorem C3_unsolvable (g0 : Grid) (sub : Nat) (hw : WellFormed g0 sub)
    (hnosol : ∀ S, ¬ Completion S g0 sub) :
    ∃ F, ∀ fuel, F ≤ fuel → ∃ s',
      backtrack g0 sub fuel = .ok (some ([], s')) ∧
      s'.stack = [] ∧ s'.blanksInProcess ≠ [] ∧ s'.grid = g0 := by
  have hnb : blankSquares g0 ≠ [] := by
    intro hx
    exact hnosol g0 (completion_self g0 sub hw hx)
  obtain ⟨sInit, hinv, hrun⟩ := backtrack_run g0 sub hw hnb
  refine ⟨nu (2 * g0.length + 2) (blankSquares g0).length sInit.stack + 1,
    fun fuel hF => ?_⟩
  obtain ⟨r, s', h⟩ := loopRun_terminates g0 sub hw fuel sInit hinv (by omega)
  obtain ⟨hinv', hcase⟩ := (loopRun_reach g0 sub hw fuel sInit hinv).2 r s' h
  rcases hcase with ⟨hr, hstk⟩ | ⟨hr, hlen⟩
  · refine ⟨s', ?_, hstk, ?_, ?_⟩
    · rw [hrun fuel, h, hr]
    · have hcons := hinv'.conservation
      have hBpos : 0 < (blankSquares g0).length := List.length_pos.mpr hnb
      rw [hstk] at hcons
      intro hx
      rw [hx] at hcons
      simp at hcons
      omega
    · have hge := hinv'.gridEq
      rw [hstk] at hge
      simpa [placeAll] using hge
  · exfalso
    have hcons := hinv'.conservation
    rw [hlen] at hcons
    have hplen : s'.blanksInProcess.length = 0 := by omega
    exact hnosol s'.grid
      (completion_of_full g0 sub s' hw hinv' (List.length_eq_zero.mp hplen))

theorem C3_unsolvable_witness :
    WellFormed C6cexGrid 2 ∧ (∀ S, ¬ Completion S C6cexGrid 2) ∧
    ∃ F, ∀ fuel, F ≤ fuel → ∃ s',
      backtrack C6cexGrid 2 fuel = .ok (some ([], s')) ∧
      s'.stack = [] ∧ s'.blanksInProcess ≠ [] ∧ s'.grid = C6cexGrid :=
  ⟨wf_c6cex, C6cexGrid_unsolvable,
    C3_unsolvable C6cexGrid 2 wf_c6cex C6cexGrid_unsolvable⟩

/-- C4: for every well-formed input grid the search terminates: some
finite fuel bound makes the main loop reach a definite outcome (a
returned grid or the empty result), and any larger fuel does too,
regardless of how many backtracks occur. -/
theorem C4_termination (g0 : Grid) (sub : Nat) (hw : WellFormed g0 sub) :
    ∃ F, ∀ fuel, F ≤ fuel → ∃ r s', backtrack g0 sub fuel = .ok (some (r, s')) :=
  backtrack_terminates g0 sub hw

theorem C4_termination_witness :
    WellFormed [[0]] 1 ∧ ∃ F, ∀ fuel, F ≤ fuel →
      ∃ r s', backtrack [[0]] 1 fuel = .ok (some (r, s')) :=
  ⟨wf_unit, C4_termination [[0]] 1 wf_unit⟩

/-- C9: for every input accepted by `checkUserGrid`, no run of the
diagnostic variant's `backtrack` reaches an internal-invariant error
branch: the computation never produces an `Except.error`, whatever the
fuel. -/
theorem C9_no_internal_error (g : Grid) (sub : Nat) (hsub : 1 ≤ sub)
    (hok : checkUserGrid g (sub * sub) sub = true) (fuel : Nat) :
    ∀ e, backtrack g sub fuel ≠ .error e :=
  backtrack_no_error g sub (checkUserGrid_wellFormed g sub hsub hok) fuel

theorem C9_no_internal_error_witness :
    1 ≤ 1 ∧ checkUserGrid [[0]] (1 * 1) 1 = true ∧
      ∀ e, backtrack [[0]] 1 2 ≠ .error e :=
  ⟨by decide, by decide, C9_no_internal_error [[0]] 1 (by decide) (by decide) 2⟩

/-- C10: if `backtrack` returns the empty no-solution result, the
caller's grid has been restored to exactly its initial contents. -/
theorem C10_grid_restored (g0 : Grid) (sub fuel : Nat) (hw : WellFormed g0 sub)
    (h : returnedGrid (backtrack g0 sub fuel) = some []) :
    finalGrid (backtrack g0 sub fuel) = some g0 := by
  obtain ⟨s', hx⟩ := returnedGrid_eq_some _ [] h
  rcases backtrack_ok g0 sub hw fuel [] s' hx with ⟨-, -, hg⟩ | ⟨hr0, hc⟩
  · rw [hx]
    show some s'.grid = some g0
    rw [hg]
  · exfalso
    have h1 : s'.grid.length = g0.length := hc.length_eq
    have h2 : g0.length = sub * sub := hw.size
    have h3 : 1 ≤ sub := hw.sub_pos
    rw [← hr0] at h1
    simp at h1
    nlinarith

theorem C10_grid_restored_witness :
    WellFormed C6cexGrid 2 ∧ returnedGrid (backtrack C6cexGrid 2 1) = some [] ∧
      finalGrid (backtrack C6cexGrid 2 1) = some C6cexGrid :=
  ⟨wf_c6cex, by decide, C10_grid_restored C6cexGrid 2 1 wf_c6cex (by decide)⟩

/-! ### Reachable states of a solve run (C7, C8) -/

/-- The states a solve run passes through: the state built before the
seeding push, the result of a push, and every state one loop iteration
steps to. -/
inductive Reach (g0 : Grid) (sub : Nat) : SolveState → Prop where
  | init : Reach g0 sub ⟨g0, occurrences g0, blankSquares g0, []⟩
  | seed : ∀ s b s', Reach g0 sub s → push s sub = .ok (b, s') → Reach g0 sub s'
  | step : ∀ s s', Reach g0 sub s →
      stepIter (blankSquares g0).length s sub = .ok (.next s') → Reach g0 sub s'

/-- Every reachable state satisfies the full invariant. -/
theorem reach_inv (g0 : Grid) (sub : Nat) (hw : WellFormed g0 sub) :
    ∀ s, Reach g0 sub s → Inv g0 sub s := by
  intro s h
  induction h with
  | init => exact initial_inv g0 sub hw
  | seed s b s' hr hpush ih =>
    have hpoolne : s.blanksInProcess ≠ [] := by
      intro hx
      have hberr : push s sub =
          .error "should not be trying to push having run out of blank squares" := by
        show (if s.blanksInProcess.isEmpty then _ else _) = _
        rw [hx]
        rfl
      rw [hberr] at hpush
      exact absurd hpush (by simp)
    obtain ⟨hfail, hok⟩ := push_spec g0 sub s hw ih hpoolne
    by_cases hC : ∀ bq ∈ s.blanksInProcess, 1 ≤ countOptions g0.length bq s.record sub
    · obtain ⟨c, hcmem, hmrv, hone, hp⟩ := hok hC
      rw [hp] at hpush
      have hps : pushedState s sub c = s' := congrArg Prod.snd (Except.ok.inj hpush)
      rw [← hps]
      exact push_inv g0 sub s hw ih c hcmem hone hmrv
    · have hp := hfail hC
      rw [hp] at hpush
      have hps : s = s' := congrArg Prod.snd (Except.ok.inj hpush)
      rw [← hps]
      exact ih
  | step s s' hr hst ih =>
    by_cases hnil : s.stack = []
    · rw [stepIter_nil _ sub s hnil] at hst
      exact absurd hst (by simp)
    · obtain ⟨f, rest, hstack⟩ : ∃ f rest, s.stack = f :: rest := by
        cases hs : s.stack with
        | nil => exact absurd hs hnil
        | cons f rest => exact ⟨f, rest, rfl⟩
      by_cases hfull : s.stack.length = (blankSquares g0).length
      · rw [stepIter_full _ sub s f rest hstack hfull] at hst
        exact absurd hst (by simp)
      · obtain ⟨s'', hst', hinv'', -⟩ := stepIter_spec g0 sub s hw ih hnil hfull
        rw [hst'] at hst
        have hss : s'' = s' := by simpa using hst
        rw [← hss]
        exact hinv''

/-- C7: for every well-formed input, the occurrence-index coherence
invariant — a coordinate is recorded under a digit iff the grid holds
that digit there — holds for the initially constructed index and at
every state reached through the pushes, pops and increments of a solve
run. -/
theorem C7_coherence (g0 : Grid) (sub : Nat) (hw : WellFormed g0 sub) :
    Coherent (occurrences g0) g0 ∧
    ∀ s, Reach g0 sub s → Coherent s.record s.grid :=
  ⟨coherent_occurrences g0 hw.square,
    fun s hs => (reach_inv g0 sub hw s hs).coh⟩

theorem C7_coherence_witness :
    WellFormed [[0]] 1 ∧ (Coherent (occurrences [[0]]) [[0]] ∧
      ∀ s, Reach [[0]] 1 s → Coherent s.record s.grid) :=
  ⟨wf_unit, C7_coherence [[0]] 1 wf_unit⟩

/-- C8: at every state reached during a run of `backtrack` — in
particular after every push and every pop — the stack size plus the
blank-pool size equals the number of blanks of the original grid. -/
theorem C8_conservation (g0 : Grid) (sub : Nat) (hw : WellFormed g0 sub) :
    ∀ s, Reach g0 sub s →
      s.stack.length + s.blanksInProcess.length = (blankSquares g0).length :=
  fun s hs => (reach_inv g0 sub hw s hs).conservation

theorem C8_conservation_witness :
    WellFormed [[0]] 1 ∧ ∀ s, Reach [[0]] 1 s →
      s.stack.length + s.blanksInProcess.length = (blankSquares [[0]]).length :=
  ⟨wf_unit, C8_conservation [[0]] 1 wf_unit⟩

/-! ### C2: the search never passes a completion -/

/-- The digits committed by the listed frames all agree with `S`. -/
def AllMatched (S : Grid) (st : List stackData) : Prop :=
  ∀ f ∈ st, frameDigit f = cellAt S f.coordinates

/-- Some frame still has `S`'s digit strictly ahead of its cursor, and
every frame below it agrees with `S`. -/
def Ahead (S : Grid) (st : List stackData) : Prop :=
  ∃ pre f suf, st = pre ++ f :: suf ∧ AllMatched S suf ∧
    ∃ j, f.index < j ∧ j < f.choices.length ∧
      f.choices.getD j 0 = cellAt S f.coordinates

/-- The search has not passed the completion `S`: either some frame has
`S`'s digit strictly ahead, or the whole stack matches `S` and the top
frame is freshly pushed (or the stack is already full). -/
def Exh (S : Grid) (B : Nat) (s : SolveState) : Prop :=
  Ahead S s.stack ∨
    (AllMatched S s.stack ∧
      (s.stack.length = B ∨ ∃ f rest, s.stack = f :: rest ∧ f.revisited = false))

theorem Ahead_markRevisited (S : Grid) (st : List stackData) (h : Ahead S st) :
    Ahead S (markRevisited st) := by
  obtain ⟨pre, f, suf, heq, hm, j, hj1, hj2, hj3⟩ := h
  subst heq
  cases pre with
  | nil =>
    exact ⟨[], { f with revisited := true }, suf, rfl, hm, j, hj1, hj2, hj3⟩
  | cons p pre' =>
    exact ⟨{ p with revisited := true } :: pre', f, suf, rfl, hm, j, hj1, hj2, hj3⟩

/-- Compatibility: while the stack matches `S`, every pool blank keeps
`S`'s digit among its current options. -/
theorem matched_compat (g0 S : Grid) (sub : Nat) (s : SolveState)
    (hw : WellFormed g0 sub) (hS : Completion S g0 sub) (hinv : Inv g0 sub s)
    (hm : AllMatched S s.stack) :
    ∀ b ∈ s.blanksInProcess, cellAt S b ∈ gridOptions s.grid b sub := by
  intro b hb
  obtain ⟨hb1, hb2, hb0⟩ := hinv.pool_blank hw.square b hb
  have hlenSg : S.length = g0.length := hS.length_eq
  have hlen : s.grid.length = g0.length := hinv.gridLength
  have hv := hS.filled b (by omega) (by omega)
  rw [mem_gridOptions]
  refine ⟨hv.1, by omega, ?_⟩
  rw [gridConsistentB_iff _ _ _ _ (hinv.gridSquare hw.square)]
  intro q hq1 hq2 hqcell
  rw [hlen] at hq1 hq2
  have hSq : cellAt S q = cellAt s.grid q := by
    by_cases hqf : q ∈ frameCoords s.stack
    · obtain ⟨f, hf, hfc⟩ := List.mem_map.mp (by simpa [frameCoords] using hqf)
      have h3 : cellAt s.grid f.coordinates = frameDigit f := by
        rw [hinv.gridEq]
        exact ((placeAll_filled_legal g0 sub hw s.stack hinv.frames
          (hinv.nodup.sublist (List.sublist_append_left _ _))).1 f hf).2.2
      rw [← hfc, h3, hm f hf]
    · have hcell : cellAt s.grid q = cellAt g0 q := by
        rw [hinv.gridEq]
        exact cellAt_placeAll_notin g0 s.stack q hqf
      rw [hcell]
      by_cases hq0 : cellAt g0 q = 0
      · exfalso
        rw [hcell, hq0] at hqcell
        omega
      · exact hS.agrees q hq1 hq2 hq0
  have hSqb : cellAt S q = cellAt S b := by rw [hSq, hqcell]
  have hqb : b ≠ q := by
    intro hx
    rw [← hx, hb0] at hqcell
    omega
  exact hS.legal b q (by omega) (by omega) (by omega) (by omega) hqb hSqb.symm

/-- A freshly pushed frame either already matches `S` or has `S`'s digit
strictly ahead. -/
theorem pushed_exh (S : Grid) (s : SolveState) (sub : Nat) (c : Coord)
    (hmem : cellAt S c ∈ gridOptions s.grid c sub) (hm : AllMatched S s.stack) :
    AllMatched S ((⟨c, gridOptions s.grid c sub, 0, false⟩ : stackData) :: s.stack) ∨
    Ahead S ((⟨c, gridOptions s.grid c sub, 0, false⟩ : stackData) :: s.stack) := by
  obtain ⟨j, hj, hjv⟩ := List.mem_iff_getElem.mp hmem
  cases Nat.eq_zero_or_pos j with
  | inl h0 =>
    left
    intro f hf
    rcases List.mem_cons.mp hf with rfl | hf
    · show (gridOptions s.grid c sub).getD 0 0 = cellAt S c
      subst h0
      rw [listGetD_eq_getElem _ _ _ hj, hjv]
    · exact hm f hf
  | inr hpos =>
    right
    exact ⟨[], _, s.stack, rfl, hm, j, hpos, hj,
      by rw [listGetD_eq_getElem _ _ _ hj, hjv]⟩

/-- One loop iteration preserves "the completion has not been passed". -/
theorem stepIter_exh (g0 S : Grid) (sub : Nat) (s : SolveState)
    (hw : WellFormed g0 sub) (hS : Completion S g0 sub) (hinv : Inv g0 sub s)
    (hexh : Exh S (blankSquares g0).length s) (hne : s.stack ≠ [])
    (hnb : s.stack.length ≠ (blankSquares g0).length) :
    ∃ s', stepIter (blankSquares g0).length s sub = .ok (.next s') ∧ Inv g0 sub s' ∧
      Exh S (blankSquares g0).length s' ∧ s'.stack ≠ [] := by
  obtain ⟨f, rest, hstack⟩ : ∃ f rest, s.stack = f :: rest := by
    cases hs : s.stack with
    | nil => exact absurd hs hne
    | cons f rest => exact ⟨f, rest, rfl⟩
  have hcons := hinv.conservation
  have hpoolne : s.blanksInProcess ≠ [] := by
    intro hx
    rw [hx] at hcons
    simp at hcons
    omega
  have hidx : f.index < f.choices.length := by
    have hframes := hinv.frames
    rw [hstack] at hframes
    exact hframes.2.1
  have hstep0 : stepIter (blankSquares g0).length s sub =
      (if s.stack.length = (blankSquares g0).length then Except.ok (IterStep.done s.grid s)
       else if f.revisited && decide (f.index + 1 < f.choices.length) then
         Except.map IterStep.next (incrementPush s sub)
       else if !f.revisited then Except.map IterStep.next (tryToPush s sub)
       else Except.map IterStep.next (pop s)) := by
    unfold stepIter
    rw [hstack]
  rw [hstep0, if_neg hnb]
  cases hrevb : f.revisited with
  | true =>
    have hahead : Ahead S s.stack := by
      rcases hexh with h | ⟨hm, hfull | ⟨fr, rr, hfr, hfrev⟩⟩
      · exact h
      · exact absurd hfull hnb
      · rw [hstack] at hfr
        have hfe : f = fr := (List.cons.inj hfr).1
        rw [← hfe, hrevb] at hfrev
        exact absurd hfrev (by simp)
    obtain ⟨pre, fw, suf, heq, hsm, j, hj1, hj2, hj3⟩ := hahead
    rw [hstack] at heq
    by_cases hadvb : f.index + 1 < f.choices.length
    · rw [if_pos (by simp [hrevb, hadvb])]
      obtain ⟨c, hcmem, hip, hinvp⟩ :=
        incrementPush_spec g0 sub s f rest hw hinv hstack hadvb hrevb hpoolne
      have hs1inv : Inv g0 sub (incrementedState s f rest) :=
        (increment_spec g0 sub s f rest hw hinv hstack hadvb hrevb).2
      refine ⟨pushedState (incrementedState s f rest) sub c, by rw [hip]; rfl, hinvp,
        ?_, List.cons_ne_nil _ _⟩
      cases pre with
      | nil =>
        obtain ⟨hfwf, hsufr⟩ := List.cons.inj heq
        subst hfwf
        subst hsufr
        by_cases hjeq : j = f.index + 1
        · have hmatch : AllMatched S (incrementedState s f rest).stack := by
            intro f' hf'
            rcases List.mem_cons.mp hf' with rfl | hf'
            · show f.choices.getD (f.index + 1) 0 = cellAt S f.coordinates
              rw [← hjeq]
              exact hj3
            · exact hsm f' hf'
          have hcop := matched_compat g0 S sub (incrementedState s f rest) hw hS
            hs1inv hmatch c hcmem
          rcases pushed_exh S (incrementedState s f rest) sub c hcop hmatch with hA | hA
          · exact Or.inr ⟨hA, Or.inr ⟨_, _, rfl, rfl⟩⟩
          · exact Or.inl hA
        · left
          exact ⟨[⟨c, gridOptions (incrementedState s f rest).grid c sub, 0, false⟩],
            { f with index := f.index + 1 }, rest, rfl, hsm, j,
            by show f.index + 1 < j; omega, hj2, hj3⟩
      | cons p pre' =>
        obtain ⟨hpf, hrest⟩ := List.cons.inj heq
        left
        refine ⟨⟨c, gridOptions (incrementedState s f rest).grid c sub, 0, false⟩ ::
          { f with index := f.index + 1 } :: pre', fw, suf, ?_, hsm, j, hj1, hj2, hj3⟩
        show _ :: { f with index := f.index + 1 } :: rest = _
        rw [hrest]
        rfl
    · rw [if_neg (by simp [hadvb]), if_neg (by simp [hrevb])]
      have hlast : f.index + 1 = f.choices.length := by omega
      obtain ⟨hpop, hpopinv⟩ := pop_spec g0 sub s f rest hw hinv hstack hlast
      cases pre with
      | nil =>
        obtain ⟨hfwf, hsufr⟩ := List.cons.inj heq
        subst hfwf
        omega
      | cons p pre' =>
        obtain ⟨hpf, hrest⟩ := List.cons.inj heq
        refine ⟨poppedState s f rest, ?_, hpopinv, ?_, ?_⟩
        · rw [show pop s = .ok (poppedState s f rest) from hpop]
          rfl
        · left
          exact Ahead_markRevisited S rest ⟨pre', fw, suf, hrest, hsm, j, hj1, hj2, hj3⟩
        · rw [show (poppedState s f rest).stack = markRevisited rest from rfl, hrest]
          cases pre' <;> simp [markRevisited]
  | false =>
    rw [if_neg (by simp [hrevb]), if_pos (by simp [hrevb])]
    rcases hexh with hahead | ⟨hm, hfull | hfreshtop⟩
    · obtain ⟨pre, fw, suf, heq, hsm, j, hj1, hj2, hj3⟩ := hahead
      rw [hstack] at heq
      rcases tryToPush_spec g0 sub s f rest hw hinv hstack hpoolne with
        ⟨c, hcmem, hcne, htry, hinvp⟩ | ⟨hlen1, hidx0, htry, hinvp⟩
      · refine ⟨pushedState s sub c, by rw [htry]; rfl, hinvp, ?_, List.cons_ne_nil _ _⟩
        left
        refine ⟨⟨c, gridOptions s.grid c sub, 0, false⟩ :: pre, fw, suf, ?_, hsm,
          j, hj1, hj2, hj3⟩
        show _ :: s.stack = _
        rw [hstack, heq]
        rfl
      · cases pre with
        | nil =>
          obtain ⟨hfwf, hsufr⟩ := List.cons.inj heq
          subst hfwf
          omega
        | cons p pre' =>
          obtain ⟨hpf, hrest⟩ := List.cons.inj heq
          refine ⟨poppedState s f rest, by rw [htry]; rfl, hinvp, ?_, ?_⟩
          · left
            exact Ahead_markRevisited S rest ⟨pre', fw, suf, hrest, hsm, j, hj1, hj2, hj3⟩
          · rw [show (poppedState s f rest).stack = markRevisited rest from rfl, hrest]
            cases pre' <;> simp [markRevisited]
    · exact absurd hfull hnb
    · have hC : ∀ b ∈ s.blanksInProcess, 1 ≤ countOptions g0.length b s.record sub := by
        intro b hb
        have hcop := matched_compat g0 S sub s hw hS hinv hm b hb
        have hcnt : countOptions g0.length b s.record sub =
            (gridOptions s.grid b sub).length := by
          rw [← hinv.gridLength]
          exact countOptions_eq_gridOptions_length s.record s.grid b sub hinv.coh
            (hinv.gridSquare hw.square)
        rw [hcnt]
        exact List.length_pos.mpr (List.ne_nil_of_mem hcop)
      obtain ⟨hfail, hok⟩ := push_spec g0 sub s hw hinv hpoolne
      obtain ⟨c, hcmem, hmrv, hone, hp⟩ := hok hC
      have htry : tryToPush s sub = .ok (pushedState s sub c) := by
        have hunfold : tryToPush s sub = (do
            let r ← push s sub
            if r.1 then pure r.2 else pop r.2) := rfl
        rw [hunfold, hp]
        rfl
      refine ⟨pushedState s sub c, by rw [htry]; rfl,
        push_inv g0 sub s hw hinv c hcmem hone hmrv, ?_, List.cons_ne_nil _ _⟩
      have hcop := matched_compat g0 S sub s hw hS hinv hm c hcmem
      rcases pushed_exh S s sub c hcop hm with hA | hA
      · exact Or.inr ⟨hA, Or.inr ⟨_, _, rfl, rfl⟩⟩
      · exact Or.inl hA

/-- While the completion has not been passed and the stack is non-empty,
the loop can only finish at the full-stack success exit. -/
theorem loopRun_exh (g0 S : Grid) (sub : Nat) (hw : WellFormed g0 sub)
    (hS : Completion S g0 sub) :
    ∀ (fuel : Nat) (s : SolveState), Inv g0 sub s →
      Exh S (blankSquares g0).length s → s.stack ≠ [] →
      ∀ r s', loopRun (blankSquares g0).length sub fuel s = .ok (some (r, s')) →
        r = s'.grid ∧ s'.stack.length = (blankSquares g0).length := by
  intro fuel
  induction fuel with
  | zero =>
    intro s _ _ _ r s' h
    simp [loopRun] at h
  | succ fuel ih =>
    intro s hinv hexh hne r s' h
    obtain ⟨f, rest, hstack⟩ : ∃ f rest, s.stack = f :: rest := by
      cases hs : s.stack with
      | nil => exact absurd hs hne
      | cons f rest => exact ⟨f, rest, rfl⟩
    by_cases hfull : s.stack.length = (blankSquares g0).length
    · have hrun : loopRun (blankSquares g0).length sub (fuel + 1) s =
          .ok (some (s.grid, s)) :=
        loopRun_step _ sub fuel s _ (stepIter_full _ sub s f rest hstack hfull)
      rw [hrun] at h
      have h1 : s.grid = r ∧ s = s' := by
        simpa [Prod.ext_iff] using h
      obtain ⟨hr, hs⟩ := h1
      exact ⟨by rw [← hr, hs], hs ▸ hfull⟩
    · obtain ⟨s'', hstep, hinv'', hexh'', hne''⟩ :=
        stepIter_exh g0 S sub s hw hS hinv hexh hne hfull
      have hrun : loopRun (blankSquares g0).length sub (fuel + 1) s =
          loopRun (blankSquares g0).length sub fuel s'' :=
        loopRun_step _ sub fuel s _ hstep
      rw [hrun] at h
      exact ih s'' hinv'' hexh'' hne'' r s' h

/-- C2: for every well-formed input grid with exactly one completion,
`backtrack` never returns any grid other than that completion, and with
enough fuel it returns exactly that completion — never the empty
no-solution result. -/
theorem C2_unique_completion (g0 : Grid) (sub : Nat) (hw : WellFormed g0 sub)
    (S : Grid) (hS : Completion S g0 sub)
    (huniq : ∀ T, Completion T g0 sub → T = S) :
    (∀ fuel r, returnedGrid (backtrack g0 sub fuel) = some r → r = S) ∧
    (∃ F, ∀ fuel, F ≤ fuel → returnedGrid (backtrack g0 sub fuel) = some S) := by
  by_cases hnb : blankSquares g0 = []
  · have hb : ∀ fuel, backtrack g0 sub fuel =
        .ok (some (g0, ⟨g0, occurrences g0, blankSquares g0, []⟩)) := by
      intro fuel
      show (if (blankSquares g0).isEmpty then _ else _) = _
      rw [hnb]
      rfl
    have hgS : g0 = S := huniq g0 (completion_self g0 sub hw hnb)
    constructor
    · intro fuel r hr
      rw [hb fuel] at hr
      have : g0 = r := by simpa [returnedGrid] using hr
      rw [← this, hgS]
    · refine ⟨0, fun fuel _ => ?_⟩
      rw [hb fuel]
      show some g0 = some S
      rw [hgS]
  · -- seed the stack: with a completion available the first push succeeds
    have hinv0 : Inv g0 sub ⟨g0, occurrences g0, blankSquares g0, []⟩ :=
      initial_inv g0 sub hw
    have hm0 : AllMatched S (⟨g0, occurrences g0, blankSquares g0, []⟩ :
        SolveState).stack := by
      intro f hf
      exact absurd hf (by simp)
    have hC : ∀ b ∈ (⟨g0, occurrences g0, blankSquares g0, []⟩ :
        SolveState).blanksInProcess,
        1 ≤ countOptions g0.length b (occurrences g0) sub := by
      intro b hb
      have hcop := matched_compat g0 S sub _ hw hS hinv0 hm0 b hb
      have hcnt : countOptions g0.length b (occurrences g0) sub =
          (gridOptions g0 b sub).length :=
        countOptions_eq_gridOptions_length (occurrences g0) g0 b sub hinv0.coh hw.square
      rw [hcnt]
      exact List.length_pos.mpr (List.ne_nil_of_mem hcop)
    obtain ⟨hfail, hok⟩ := push_spec g0 sub _ hw hinv0 hnb
    obtain ⟨c, hcmem, hmrv, hone, hp⟩ := hok hC
    have hrun : ∀ fuel, backtrack g0 sub fuel =
        loopRun (blankSquares g0).length sub fuel
          (pushedState ⟨g0, occurrences g0, blankSquares g0, []⟩ sub c) := by
      intro fuel
      have hne' : (blankSquares g0).isEmpty = false := by
        simpa [List.isEmpty_iff] using hnb
      have hb : backtrack g0 sub fuel = (do
          let r ← push ⟨g0, occurrences g0, blankSquares g0, []⟩ sub
          loopRun (blankSquares g0).length sub fuel r.2) := by
        show (if (blankSquares g0).isEmpty then _ else _) = _
        rw [hne']
        rfl
      rw [hb, hp]
      rfl
    have hinv1 : Inv g0 sub (pushedState ⟨g0, occurrences g0, blankSquares g0, []⟩ sub c) :=
      push_inv g0 sub _ hw hinv0 c hcmem hone hmrv
    have hexh1 : Exh S (blankSquares g0).length
        (pushedState ⟨g0, occurrences g0, blankSquares g0, []⟩ sub c) := by
      have hcop := matched_compat g0 S sub _ hw hS hinv0 hm0 c hcmem
      rcases pushed_exh S ⟨g0, occurrences g0, blankSquares g0, []⟩ sub c hcop hm0 with
        hA | hA
      · exact Or.inr ⟨hA, Or.inr ⟨_, _, rfl, rfl⟩⟩
      · exact Or.inl hA
    have hne1 : (pushedState ⟨g0, occurrences g0, blankSquares g0, []⟩ sub c).stack ≠ [] :=
      List.cons_ne_nil _ _
    have hsolved : ∀ fuel r s',
        loopRun (blankSquares g0).length sub fuel
          (pushedState ⟨g0, occurrences g0, blankSquares g0, []⟩ sub c) =
          .ok (some (r, s')) → r = S := by
      intro fuel r s' h
      obtain ⟨hr, hlen⟩ := loopRun_exh g0 S sub hw hS fuel _ hinv1 hexh1 hne1 r s' h
      obtain ⟨hinv', -⟩ := (loopRun_reach g0 sub hw fuel _ hinv1).2 r s' h
      have hcons := hinv'.conservation
      rw [hlen] at hcons
      have hplen : s'.blanksInProcess.length = 0 := by omega
      have hcomp := completion_of_full g0 sub s' hw hinv' (List.length_eq_zero.mp hplen)
      rw [hr]
      exact huniq s'.grid hcomp
    constructor
    · intro fuel r hr
      obtain ⟨s', hx⟩ := returnedGrid_eq_some _ r hr
      rw [hrun fuel] at hx
      exact hsolved fuel r s' hx
    · refine ⟨nu (2 * g0.length + 2) (blankSquares g0).length
        (pushedState ⟨g0, occurrences g0, blankSquares g0, []⟩ sub c).stack + 1,
        fun fuel hF => ?_⟩
      obtain ⟨r, s', h⟩ := loopRun_terminates g0 sub hw fuel _ hinv1 (by omega)
      have hrS := hsolved fuel r s' h
      rw [hrun fuel, h]
      show some r = some S
      rw [hrS]

theorem completion_unit : Completion [[1]] [[0]] 1 := by
  refine ⟨rfl, ?_, ?_, ?_, ?_⟩
  · intro row hr
    simp at hr
    rw [hr]
    rfl
  · rintro ⟨a, b⟩ h1 h2
    simp at h1 h2
    have ha : a = 0 := by omega
    have hb : b = 0 := by omega
    subst ha
    subst hb
    decide
  · rintro ⟨a, b⟩ h1 h2 h0
    simp at h1 h2
    have ha : a = 0 := by omega
    have hb : b = 0 := by omega
    subst ha
    subst hb
    exact absurd (by decide : cellAt [[0]] (0, 0) = 0) h0
  · rintro ⟨a, b⟩ ⟨e, d⟩ h1 h2 h3 h4 hne heq
    exfalso
    simp at h1 h2 h3 h4
    exact hne (Prod.ext (by omega) (by omega))

theorem completion_unit_unique : ∀ T, Completion T [[0]] 1 → T = [[1]] := by
  intro T hT
  have hlen : T.length = 1 := hT.length_eq
  obtain ⟨row, hrow⟩ := List.length_eq_one.mp hlen
  have hrl : row.length = 1 := by
    have hsq := hT.square row (by rw [hrow]; simp)
    rw [hlen] at hsq
    exact hsq
  obtain ⟨v, hv⟩ := List.length_eq_one.mp hrl
  have hfill := hT.filled (0, 0) (by rw [hlen]; decide) (by rw [hlen]; decide)
  have hcell : cellAt T (0, 0) = v := by
    rw [hrow, hv]
    rfl
  rw [hcell, hlen] at hfill
  have hv1 : v = 1 := by omega
  rw [hrow, hv, hv1]

theorem C2_unique_completion_witness :
    WellFormed [[0]] 1 ∧ Completion [[1]] [[0]] 1 ∧
    (∀ T, Completion T [[0]] 1 → T = [[1]]) ∧
    ((∀ fuel r, returnedGrid (backtrack [[0]] 1 fuel) = some r → r = [[1]]) ∧
      ∃ F, ∀ fuel, F ≤ fuel → returnedGrid (backtrack [[0]] 1 fuel) = some [[1]]) :=
  ⟨wf_unit, completion_unit, completion_unit_unique,
    C2_unique_completion [[0]] 1 wf_unit [[1]] completion_unit completion_unit_unique⟩

end Sudoku
